import Mathlib

/-!
# Verification of `perf_curves.py`

A shallow embedding of the vectorized binary-classification curve library
(`perf_curves.py`) and proofs of its specified properties.

Modelling conventions:

* numpy float64 values on the paths relevant to the claims are modelled by
  exact rationals `ℚ`.  The special IEEE values that the code manufactures on
  purpose (`np.inf` thresholds, `±inf`/`NaN` from suppressed divisions) are
  modelled by the type `F` below, a rational number extended with `+inf`,
  `-inf` and `NaN`, with arithmetic mirroring IEEE semantics on the operations
  the code performs (all denominators that can vanish in the code are `+0`,
  so a signed-zero distinction is not needed).
* A 2-d numpy array of shape `[n_thresholds, bs_samples]` is represented
  column-wise as a `List (List ℚ)`: one inner list per bootstrap-replicate
  column, since every array operation in the code acts independently per
  column.  The weight matrix input of shape `[n_samples, bs_samples]` is
  represented row-wise (`List (List ℚ)`, one inner list per sample), matching
  the numpy shape, because the sample sort permutes its rows.
* A Python `assert` failure (and the `IndexError` that `precision[1, :]`
  would raise on an impossibly short array) is modelled by returning `none`;
  a successful call returns `some` of the result tuple.
* `np.allclose` guards compare exact rationals here, hence are modelled as
  exact equality (rational arithmetic has no rounding error, so the guard
  holds exactly whenever the algebraic identity it checks holds).
* numpy dtypes are modelled by the two-element type `Dtype` (`int` for the
  integer count arrays of the unweighted branch, `float` otherwise).
-/

/-- The pseudo-count constant `EPSILON = 1e-10` of the source, modelled as the
exact rational `10⁻¹⁰`. -/
def EPSILON : ℚ := 1 / 10000000000

/-- numpy dtype marker: the unweighted branch produces integer count arrays,
everything else is floating point. -/
inductive Dtype where
  | int : Dtype
  | float : Dtype
deriving DecidableEq, Repr

/-- An IEEE-754-style value: a finite rational, `+inf`, `-inf`, or `NaN`.
Used to model the float special values the code creates deliberately
(infinite thresholds, suppressed divisions by zero). -/
inductive F where
  | nan : F
  | ninf : F
  | pinf : F
  | fin : ℚ → F
deriving DecidableEq, Repr

namespace F

/-- Is this value NaN? -/
def isNan : F → Bool
  | nan => true
  | _ => false

/-- IEEE negation. -/
def neg : F → F
  | nan => nan
  | ninf => pinf
  | pinf => ninf
  | fin a => fin (-a)

/-- IEEE addition (`inf + (-inf) = NaN`, NaN absorbs). -/
def add : F → F → F
  | nan, _ => nan
  | _, nan => nan
  | pinf, ninf => nan
  | ninf, pinf => nan
  | pinf, _ => pinf
  | _, pinf => pinf
  | ninf, _ => ninf
  | _, ninf => ninf
  | fin a, fin b => fin (a + b)

/-- IEEE subtraction. -/
def sub (x y : F) : F := add x (neg y)

/-- IEEE multiplication (`0 * ±inf = NaN`, NaN absorbs). -/
def mul : F → F → F
  | nan, _ => nan
  | _, nan => nan
  | pinf, pinf => pinf
  | pinf, ninf => ninf
  | ninf, pinf => ninf
  | ninf, ninf => pinf
  | pinf, fin b => if b > 0 then pinf else if b < 0 then ninf else nan
  | fin a, pinf => if a > 0 then pinf else if a < 0 then ninf else nan
  | ninf, fin b => if b > 0 then ninf else if b < 0 then pinf else nan
  | fin a, ninf => if a > 0 then ninf else if a < 0 then pinf else nan
  | fin a, fin b => fin (a * b)

/-- IEEE comparison `≤` as numpy evaluates it: NaN is incomparable. -/
def le : F → F → Bool
  | nan, _ => false
  | _, nan => false
  | ninf, _ => true
  | _, ninf => false
  | _, pinf => true
  | pinf, _ => false
  | fin a, fin b => decide (a ≤ b)

/-- IEEE comparison `<` as numpy evaluates it: NaN is incomparable. -/
def lt : F → F → Bool
  | nan, _ => false
  | _, nan => false
  | _, ninf => false
  | ninf, _ => true
  | pinf, _ => false
  | _, pinf => true
  | fin a, fin b => decide (a < b)

/-- IEEE equality test as numpy evaluates `==`: NaN equals nothing. -/
def beq : F → F → Bool
  | nan, _ => false
  | _, nan => false
  | pinf, pinf => true
  | ninf, ninf => true
  | fin a, fin b => decide (a = b)
  | _, _ => false

/-- `np.maximum`: propagates NaN, otherwise the larger argument. -/
def fmax (x y : F) : F :=
  if x.isNan || y.isNan then nan else if le x y then y else x

end F

/-- numpy `true_divide` on finite operands whose zero denominators are `+0`
(the only kind arising in this code): a nonzero numerator over zero gives a
signed infinity, `0/0` gives NaN. -/
def qdivF (a b : ℚ) : F :=
  if b ≠ 0 then F.fin (a / b)
  else if a > 0 then F.pinf
  else if a < 0 then F.ninf
  else F.nan

/-- `np.cumsum` on a 1-d array: inclusive prefix sums. -/
def cumsum : List ℚ → List ℚ
  | [] => []
  | x :: xs => x :: (cumsum xs).map (fun y => x + y)

/-- `np.maximum.accumulate` on a 1-d array: running maxima. -/
def cummax : List ℚ → List ℚ
  | [] => []
  | x :: xs => x :: (cummax xs).map (fun y => max x y)

/-- `np.diff` of a 1-d rational array: consecutive differences. -/
def diffsQ (c : List ℚ) : List ℚ := List.zipWith (fun a b => a - b) c.tail c

/-- `np.diff` of a 1-d array of `F` values: consecutive differences. -/
def diffF (l : List F) : List F := List.zipWith F.sub l.tail l

/-- `np.argsort(s, kind='mergesort')[::-1]`: the index permutation that
stably sorts `s` ascending, reversed, so that indexing by it sorts
descending. -/
def argsortDesc (s : List ℚ) : List ℕ :=
  ((List.range s.length).mergeSort (fun i j => decide (s.getD i 0 ≤ s.getD j 0))).reverse

/-- Lines 121–122: the positions where the (descending-sorted) score changes,
plus the final index — the boundaries that become distinct thresholds. -/
def thresholdIdxs (s : List ℚ) : List ℕ :=
  ((List.range (s.length - 1)).filter (fun i => decide (s.getD i 0 ≠ s.getD (i + 1) 0)))
    ++ [s.length - 1]

/-- Per-sample contribution to the true-positive count: `y_true * weight`. -/
def wPos (l : Bool) (w : ℚ) : ℚ := if l then w else 0

/-- Per-sample contribution to the false-positive count: `(~y_true) * weight`. -/
def wNeg (l : Bool) (w : ℚ) : ℚ := if l then 0 else w

/-- Line 138 for one replicate column: cumulative weighted true positives,
sampled at the threshold boundaries
(`np.cumsum(y_true[:, None] * weight, axis=0)[threshold_idxs, :]`). -/
def tpsCol (lab : List Bool) (ws : List ℚ) (tidx : List ℕ) : List ℚ :=
  tidx.map (fun i => (cumsum (List.zipWith wPos lab ws)).getD i 0)

/-- Line 139 for one replicate column: cumulative weight at the boundaries
minus true positives (`np.cumsum(weight, axis=0)[threshold_idxs, :] - tps`). -/
def fpsCol (lab : List Bool) (ws : List ℚ) (tidx : List ℕ) : List ℚ :=
  List.zipWith (fun c t => c - t)
    (tidx.map (fun i => (cumsum ws).getD i 0)) (tpsCol lab ws tidx)

/-- Line 125 (unweighted branch): `np.cumsum(y_true)[threshold_idxs]`. -/
def tpsColNone (lab : List Bool) (tidx : List ℕ) : List ℚ :=
  tidx.map (fun i => (cumsum (lab.map (fun l => if l then (1 : ℚ) else 0))).getD i 0)

/-- Line 126 (unweighted branch): `fps = 1 + threshold_idxs - tps`. -/
def fpsColNone (lab : List Bool) (tidx : List ℕ) : List ℚ :=
  List.zipWith (fun (i : ℕ) t => 1 + (i : ℚ) - t) tidx (tpsColNone lab tidx)

/-- Line 146: the threshold sequence `np.r_[np.inf, y_score[threshold_idxs]]`,
with `np.inf` modelled as `⊤ : WithTop ℚ`. -/
def clfThresholds (s : List ℚ) (tidx : List ℕ) : List (WithTop ℚ) :=
  ⊤ :: tidx.map (fun i => ((s.getD i 0 : ℚ) : WithTop ℚ))

/-- Does a count column end in an exactly-zero total (`fps[-1, :] == 0`)? -/
def lastZero (c : List ℚ) : Bool := decide (c.getLastD 0 = 0)

/-- Source `add_pseudo_points` (lines 42–73), on column-wise count matrices:
a column whose false-positive total is zero is replaced by `EPSILON` times the
true-positive column, then symmetrically for zero true-positive totals (using
the already-updated false positives, as the source's in-place line 72 does).
The two returned `Dtype`s model the `astype(float)` cast applied to both
matrices when any column is fixed. -/
def add_pseudo_points (fps tps : List (List ℚ)) (d : Dtype) :
    List (List ℚ) × List (List ℚ) × Dtype × Dtype :=
  let anyFix := (fps.any lastZero) || (tps.any lastZero)
  let fps1 := List.zipWith
    (fun f t => if lastZero f then t.map (fun x => EPSILON * x) else f) fps tps
  let tps1 := List.zipWith
    (fun f1 t => if lastZero t then f1.map (fun x => EPSILON * x) else t) fps1 tps
  (fps1, tps1, if anyFix then Dtype.float else d, if anyFix then Dtype.float else d)

/-- Lines 148–158 of `_binary_clf_curve`, shared by both branches: apply the
pseudo-point correction to the zero-prepended count matrices, check the
strictly-positive-totals and matching-dtype assertions, re-enforce
monotonicity of the false positives with a running maximum, and check the
final non-decreasing assertion. -/
def finishEngine (fps0 tps0 : List (List ℚ)) (thr : List (WithTop ℚ)) (d : Dtype) :
    Option (List (List ℚ) × List (List ℚ) × List (WithTop ℚ) × Dtype × Dtype) :=
  match add_pseudo_points fps0 tps0 d with
  | (fps1, tps1, dfps, dtps) =>
    if (∀ c ∈ fps1, 0 < c.getLastD 0) ∧ (∀ c ∈ tps1, 0 < c.getLastD 0) then
      if dfps = dtps then
        let fps2 := fps1.map cummax
        if (∀ c ∈ fps2, ∀ dl ∈ diffsQ c, 0 ≤ dl) ∧
            (∀ c ∈ tps1, ∀ dl ∈ diffsQ c, 0 ≤ dl) then
          some (fps2, tps1, thr, dfps, dtps)
        else none
      else none
    else none

/-- Source `_binary_clf_curve` (lines 76–158).  Inputs: label list, score
list, and optionally a row-major weight matrix (`[n_samples, bs_samples]`).
Output on success: column-wise count matrices `fps`, `tps`, the shared
threshold sequence, and the dtypes of the two count matrices.  `none` models
an assertion failure.  The structural numpy assertions (1-d boolean labels,
finite scores, 2-d weights) are enforced by the types `List Bool`, `List ℚ`,
`List (List ℚ)`-with-rectangularity here; the remaining assertions are
modelled explicitly. -/
def binary_clf_curve (y_true : List Bool) (y_score : List ℚ)
    (sample_weight : Option (List (List ℚ))) :
    Option (List (List ℚ) × List (List ℚ) × List (WithTop ℚ) × Dtype × Dtype) :=
  if y_score.length = y_true.length ∧ 1 ≤ y_true.length then
    let idx := argsortDesc y_score
    let s := idx.map (fun i => y_score.getD i 0)
    let lab := idx.map (fun i => y_true.getD i false)
    let tidx := thresholdIdxs s
    match sample_weight with
    | none =>
      let tps := tpsColNone lab tidx
      let fps := fpsColNone lab tidx
      if fps.getLastD 0 = ((lab.filter (fun l => !l)).length : ℚ) ∧
          tps.getLastD 0 = ((lab.filter (fun l => l)).length : ℚ) then
        finishEngine [0 :: fps] [0 :: tps] (clfThresholds s tidx) Dtype.int
      else none
    | some W =>
      let m := (W.headD []).length
      if W.length = y_true.length ∧ 1 ≤ m ∧ (∀ r ∈ W, r.length = m) ∧
          (∀ r ∈ W, ∀ x ∈ r, 0 < x) then
        let colW : ℕ → List ℚ := fun j => idx.map (fun i => (W.getD i []).getD j 0)
        let tpsC := (List.range m).map (fun j => tpsCol lab (colW j) tidx)
        let fpsC := (List.range m).map (fun j => fpsCol lab (colW j) tidx)
        if (∀ j ∈ List.range m,
              (fpsCol lab (colW j) tidx).getLastD 0 =
                (List.zipWith wNeg lab (colW j)).sum ∧
              (tpsCol lab (colW j) tidx).getLastD 0 =
                (List.zipWith wPos lab (colW j)).sum) then
          finishEngine (fpsC.map (fun c => 0 :: c)) (tpsC.map (fun c => 0 :: c))
            (clfThresholds s tidx) Dtype.float
        else none
      else none
  else none

/-- The engine's precondition: same-length labels and scores, a non-empty
label list, and, when a weight matrix is given, a rectangular matrix with one
row per sample, at least one column, and strictly positive entries. -/
def clfValid (y_true : List Bool) (y_score : List ℚ)
    (sample_weight : Option (List (List ℚ))) : Prop :=
  y_score.length = y_true.length ∧ 1 ≤ y_true.length ∧
  match sample_weight with
  | none => True
  | some W => W.length = y_true.length ∧ 1 ≤ (W.headD []).length ∧
      (∀ r ∈ W, r.length = (W.headD []).length) ∧ (∀ r ∈ W, ∀ x ∈ r, 0 < x)

instance (y_true : List Bool) (y_score : List ℚ) (sw : Option (List (List ℚ))) :
    Decidable (clfValid y_true y_score sw) := by
  unfold clfValid; cases sw <;> infer_instance

/-- Everything the claims need of one replicate column of the engine output:
matching lengths with at least two rows, zero counts at the sentinel row,
column-wise monotonicity, non-negative entries, strictly positive totals, and
a strictly positive denominator `tps + fps` at every non-sentinel row. -/
def GoodCol (f t : List ℚ) : Prop :=
  f.length = t.length ∧ 2 ≤ t.length ∧
  f.headD 0 = 0 ∧ t.headD 0 = 0 ∧
  List.Chain' (· ≤ ·) f ∧ List.Chain' (· ≤ ·) t ∧
  (∀ v ∈ f, 0 ≤ v) ∧ (∀ v ∈ t, 0 ≤ v) ∧
  0 < f.getLastD 0 ∧ 0 < t.getLastD 0 ∧
  (∀ i, 1 ≤ i → i < t.length → 0 < t.getD i 0 + f.getD i 0)

/-- The facts that hold of a raw (pre-correction) column pair. -/
def RawCol (f t : List ℚ) : Prop :=
  f.length = t.length ∧ 2 ≤ t.length ∧
  f.headD 0 = 0 ∧ t.headD 0 = 0 ∧
  List.Chain' (· ≤ ·) f ∧ List.Chain' (· ≤ ·) t ∧
  (∀ v ∈ f, 0 ≤ v) ∧ (∀ v ∈ t, 0 ≤ v) ∧
  (∀ i, 1 ≤ i → i < t.length → 0 < t.getD i 0 + f.getD i 0)

/-- The backward-interpolation override `a[0, :] = a[1, :]` applied to one
column: replace the first entry by the second. -/
def overrideFirst (c : List F) : List F := c.set 0 (c.getD 1 (F.fin 0))

/-- One column divided by its own final entry (`a / a[-1:, :]`), the rate
transform used by `roc_curve` and for the recall in
`recall_precision_curve`. -/
def rateCol (c : List ℚ) : List F := c.map (fun v => qdivF v (c.getLastD 0))

/-- One column of `tps / (tps + fps)` (suppressed division). -/
def precCol (fc tc : List ℚ) : List F :=
  List.zipWith (fun f t => qdivF t (t + f)) fc tc

/-- One column of `1 - (n_pos * fns) / (n_neg * tps)` (suppressed
division), with `n_neg = fps[-1]`, `n_pos = tps[-1]`, `fns = n_pos - tps`. -/
def recGainCol (fc tc : List ℚ) : List F :=
  tc.map (fun t => F.sub (F.fin 1)
    (qdivF (tc.getLastD 0 * (tc.getLastD 0 - t)) (fc.getLastD 0 * t)))

/-- One column of `1 - (n_pos * fps) / (n_neg * tps)` (suppressed
division). -/
def precGainCol (fc tc : List ℚ) : List F :=
  List.zipWith (fun f t => F.sub (F.fin 1)
    (qdivF (tc.getLastD 0 * f) (fc.getLastD 0 * t))) fc tc

/-- `np.maximum(0.0, a)` applied to one column. -/
def clip0 (c : List F) : List F := c.map (fun v => F.fmax (F.fin 0) v)

/-- Source `roc_curve` (lines 161–195): run the engine and divide each count
matrix by its own final row, column-wise. -/
def roc_curve (y_true : List Bool) (y_score : List ℚ)
    (sample_weight : Option (List (List ℚ))) :
    Option (List (List F) × List (List F) × List (WithTop ℚ)) :=
  match binary_clf_curve y_true y_score sample_weight with
  | none => none
  | some (fps, tps, thr, _, _) =>
    let fpr := fps.map rateCol
    let tpr := tps.map rateCol
    some (fpr, tpr, thr)

/-- Source `recall_precision_curve` (lines 198–237): recall `tps / tps[-1]`,
precision `tps / (tps + fps)` with suppressed division, first row overwritten
by the second, then the `0 ≤ precision ≤ 1` assertion.  The `2 ≤` length
guard models the `IndexError` that `precision[1, :]` would raise on a
single-row array. -/
def recall_precision_curve (y_true : List Bool) (y_score : List ℚ)
    (sample_weight : Option (List (List ℚ))) :
    Option (List (List F) × List (List F) × List (WithTop ℚ)) :=
  match binary_clf_curve y_true y_score sample_weight with
  | none => none
  | some (fps, tps, thr, _, _) =>
    let recl := tps.map rateCol
    let precision0 := List.zipWith precCol fps tps
    if ∀ c ∈ precision0, 2 ≤ c.length then
      let precision := precision0.map overrideFirst
      if ∀ c ∈ precision, ∀ p ∈ c,
          (F.le (F.fin 0) p && F.le p (F.fin 1)) = true then
        some (recl, precision, thr)
      else none
    else none

/-- Source `prg_curve` (lines 240–282): gain-transformed recall and
precision with suppressed divisions, first-row override of the precision
gain, the non-decreasing-recall-gain assertion (NaN differences pass, as
under `np.errstate(invalid='ignore')` a NaN comparison is `False`), clipping
of the recall gain at 0 (`np.maximum`), and the final two assertions. -/
def prg_curve (y_true : List Bool) (y_score : List ℚ)
    (sample_weight : Option (List (List ℚ))) :
    Option (List (List F) × List (List F) × List (WithTop ℚ)) :=
  match binary_clf_curve y_true y_score sample_weight with
  | none => none
  | some (fps, tps, thr, _, _) =>
    let recGain0 := List.zipWith recGainCol fps tps
    let precGain0 := List.zipWith precGainCol fps tps
    if ∀ c ∈ precGain0, 2 ≤ c.length then
      let precGain := precGain0.map overrideFirst
      if ∀ c ∈ recGain0, ∀ dl ∈ diffF c, F.lt dl (F.fin 0) = false then
        let recGain := recGain0.map clip0
        if (∀ c ∈ recGain, ∀ v ∈ c, F.le v (F.fin 1) = true) ∧
            (∀ p ∈ List.zip recGain precGain, ∀ rp ∈ List.zip p.1 p.2,
              (F.beq rp.1 (F.fin 0) || F.le rp.2 (F.fin 1)) = true) then
          some (recGain, precGain, thr)
        else none
      else none
    else none

/-- `np.nansum` of a 1-d array: NaN entries count as zero. -/
def nansum (l : List F) : F :=
  (l.map (fun v => if v.isNan then F.fin 0 else v)).foldl F.add (F.fin 0)

/-- Source `auc_left` (lines 305–326): reject NaN inputs, then per column
sum `y[:-1] * diff(x)` with NaN products (the `0 * inf` boundary case)
counted as zero. -/
def auc_left (x_curve y_curve : List (List F)) : Option (List F) :=
  if (x_curve.any fun c => c.any F.isNan) || (y_curve.any fun c => c.any F.isNan) then
    none
  else
    some (List.zipWith (fun xc yc => nansum (List.zipWith F.mul yc.dropLast (diffF xc)))
      x_curve y_curve)

/-- The left Riemann sum exactly as the specification words it:
`Σ y[i] · (x[i+1] − x[i])` for `i` in `0 .. n−2`, with a product that
evaluates to NaN counted as 0. -/
def riemannSpec (xc yc : List F) : F :=
  (List.range (xc.length - 1)).foldl
    (fun acc i =>
      F.add acc
        (let p := F.mul (yc.getD i (F.fin 0))
          (F.sub (xc.getD (i + 1) (F.fin 0)) (xc.getD i (F.fin 0)))
         if p.isNan then F.fin 0 else p))
    (F.fin 0)

/-- Source `_nv_add_pseudo_points` (lines 329–338): the sequential reference
correction for one column (the second branch reads the possibly already
corrected false positives, as in the source). -/
def nv_add_pseudo_points (fps tps : List ℚ) : List ℚ × List ℚ :=
  let fps1 := if lastZero fps then tps.map (fun x => EPSILON * x) else fps
  let tps1 := if lastZero tps then fps1.map (fun x => EPSILON * x) else tps
  (fps1, tps1)

/-- Source `_nv_binary_clf_curve` (lines 341–386): the sequential
single-column reference implementation, including its extra assertion
(line 374) that the first threshold's counts are not both zero. -/
def nv_binary_clf_curve (y_true : List Bool) (y_score : List ℚ)
    (sample_weight : Option (List ℚ)) :
    Option (List ℚ × List ℚ × List (WithTop ℚ)) :=
  if y_score.length = y_true.length ∧ 1 ≤ y_true.length then
    let idx := argsortDesc y_score
    let s := idx.map (fun i => y_score.getD i 0)
    let lab := idx.map (fun i => y_true.getD i false)
    let tidx := thresholdIdxs s
    let finish : List ℚ → List ℚ → Option (List ℚ × List ℚ × List (WithTop ℚ)) :=
      fun fps tps =>
        if ¬ (tps.headD 0 = 0 ∧ fps.headD 0 = 0) then
          let fps1 := (nv_add_pseudo_points (0 :: fps) (0 :: tps)).1
          let tps1 := (nv_add_pseudo_points (0 :: fps) (0 :: tps)).2
          if 0 < fps1.getLastD 0 ∧ 0 < tps1.getLastD 0 then
            let fps2 := cummax fps1
            if (∀ dl ∈ diffsQ fps2, 0 ≤ dl) ∧ (∀ dl ∈ diffsQ tps1, 0 ≤ dl) then
              some (fps2, tps1, clfThresholds s tidx)
            else none
          else none
        else none
    match sample_weight with
    | none =>
      let tps := tpsColNone lab tidx
      let fps := fpsColNone lab tidx
      if fps.getLastD 0 = ((lab.filter (fun l => !l)).length : ℚ) ∧
          tps.getLastD 0 = ((lab.filter (fun l => l)).length : ℚ) then
        finish fps tps
      else none
    | some w =>
      if w.length = y_true.length ∧ (∀ x ∈ w, 0 < x) then
        let ws := idx.map (fun i => w.getD i 0)
        let tps := tpsCol lab ws tidx
        let fps := fpsCol lab ws tidx
        if fps.getLastD 0 = (List.zipWith wNeg lab ws).sum ∧
            tps.getLastD 0 = (List.zipWith wPos lab ws).sum then
          finish fps tps
        else none
      else none
  else none

/-! ## Basic list lemmas -/

theorem getD_map_rat (f : ℚ → ℚ) (l : List ℚ) (i : ℕ) (h : i < l.length) (d d' : ℚ) :
    (l.map f).getD i d = f (l.getD i d') := by
  rw [List.getD_eq_getElem _ _ (by simpa using h), List.getD_eq_getElem _ _ h,
    List.getElem_map]

theorem getLastD_eq_getD (l : List ℚ) (h : l ≠ []) (d d' : ℚ) :
    l.getLastD d = l.getD (l.length - 1) d' := by
  induction l generalizing d with
  | nil => exact absurd rfl h
  | cons x xs ih =>
    cases xs with
    | nil => rfl
    | cons y ys =>
      rw [List.getLastD_cons, ih (by simp) x]
      simp [List.getD_cons_succ]

theorem getLastD_congr (l : List ℚ) (h : l ≠ []) (d d' : ℚ) :
    l.getLastD d = l.getLastD d' := by
  rw [getLastD_eq_getD l h d d', getLastD_eq_getD l h d' d']

theorem headD_eq_getD (l : List ℚ) (d : ℚ) : l.headD d = l.getD 0 d := by
  cases l <;> rfl

theorem getLastD_map_rat (f : ℚ → ℚ) (l : List ℚ) (h : l ≠ []) (d d' : ℚ) :
    (l.map f).getLastD d = f (l.getLastD d') := by
  rw [getLastD_eq_getD _ (by simpa using h) d 0, getLastD_eq_getD l h d' 0, List.length_map]
  exact getD_map_rat f l _ (by
    have : 0 < l.length := List.length_pos.mpr h
    omega) 0 0

theorem chain'_le_map_epsilon (c : List ℚ) (h : List.Chain' (· ≤ ·) c) :
    List.Chain' (· ≤ ·) (c.map (fun x => EPSILON * x)) := by
  refine List.chain'_map_of_chain' _ (fun a b hab => ?_) h
  have : (0 : ℚ) ≤ EPSILON := by norm_num [EPSILON]
  nlinarith

theorem chain'_le_getLastD (c : List ℚ) (h : List.Chain' (· ≤ ·) c) :
    ∀ v ∈ c, v ≤ c.getLastD 0 := by
  induction c with
  | nil => intro v hv; cases hv
  | cons x xs ih =>
    intro v hv
    cases xs with
    | nil =>
      rcases List.mem_cons.mp hv with rfl | hv'
      · simp
      · cases hv'
    | cons y ys =>
      have hch := List.chain'_cons.mp h
      have hlast : (x :: y :: ys).getLastD 0 = (y :: ys).getLastD 0 := by
        rw [List.getLastD_cons]
        exact getLastD_congr _ (by simp) x 0
      rcases List.mem_cons.mp hv with rfl | hv'
      · have h2 : y ≤ (y :: ys).getLastD 0 := ih hch.2 y (List.mem_cons_self _ _)
        rw [hlast]
        exact le_trans hch.1 h2
      · rw [hlast]
        exact ih hch.2 v hv'

/-! ## `cumsum` lemmas -/

theorem cumsum_length (xs : List ℚ) : (cumsum xs).length = xs.length := by
  induction xs with
  | nil => rfl
  | cons x xs ih => simp [cumsum, ih]

theorem cumsum_getD (xs : List ℚ) (i : ℕ) (h : i < xs.length) :
    (cumsum xs).getD i 0 = (xs.take (i + 1)).sum := by
  induction xs generalizing i with
  | nil => simp at h
  | cons x xs ih =>
    cases i with
    | zero => simp [cumsum]
    | succ j =>
      have hj : j < xs.length := by simpa using h
      rw [cumsum, List.getD_cons_succ, List.take_succ_cons, List.sum_cons,
        getD_map_rat _ _ j (by simpa [cumsum_length] using hj) 0 0, ih j hj]

theorem cumsum_getLastD (xs : List ℚ) (h : xs ≠ []) : (cumsum xs).getLastD 0 = xs.sum := by
  have hl : 0 < xs.length := List.length_pos.mpr h
  have hc : cumsum xs ≠ [] := by
    intro hnil
    have := cumsum_length xs
    rw [hnil] at this
    simp at this
    omega
  rw [getLastD_eq_getD _ hc 0 0, cumsum_length, cumsum_getD xs _ (by omega)]
  congr 1
  exact List.take_of_length_le (by omega)

theorem sum_take_le (xs : List ℚ) (hx : ∀ x ∈ xs, 0 ≤ x) {i j : ℕ} (hij : i ≤ j) :
    (xs.take i).sum ≤ (xs.take j).sum := by
  calc (xs.take i).sum
      ≤ (xs.take i).sum + ((xs.take j).drop i).sum := by
        refine le_add_of_nonneg_right (List.sum_nonneg fun x hx' => ?_)
        exact hx x (List.mem_of_mem_take (List.mem_of_mem_drop hx'))
    _ = ((xs.take j).take i ++ (xs.take j).drop i).sum := by
        rw [List.sum_append, List.take_take, min_eq_left hij]
    _ = (xs.take j).sum := by rw [List.take_append_drop]

theorem cumsum_getD_mono (xs : List ℚ) (hx : ∀ x ∈ xs, 0 ≤ x) {i j : ℕ}
    (hij : i ≤ j) (hj : j < xs.length) :
    (cumsum xs).getD i 0 ≤ (cumsum xs).getD j 0 := by
  rw [cumsum_getD xs i (lt_of_le_of_lt hij hj), cumsum_getD xs j hj]
  exact sum_take_le xs hx (by omega)

theorem cumsum_getD_nonneg (xs : List ℚ) (hx : ∀ x ∈ xs, 0 ≤ x) (i : ℕ)
    (h : i < xs.length) : 0 ≤ (cumsum xs).getD i 0 := by
  rw [cumsum_getD xs i h]
  exact List.sum_nonneg fun x hx' => hx x (List.mem_of_mem_take hx')

theorem cumsum_getD_pos (xs : List ℚ) (hx : ∀ x ∈ xs, 0 < x) (i : ℕ)
    (h : i < xs.length) : 0 < (cumsum xs).getD i 0 := by
  rw [cumsum_getD xs i h]
  apply List.sum_pos
  · exact fun x hx' => hx x (List.mem_of_mem_take hx')
  · have hlen : (xs.take (i + 1)).length = i + 1 := by
      rw [List.length_take]; omega
    intro hnil
    rw [hnil] at hlen
    simp at hlen

/-! ## `cummax` lemmas -/

theorem cummax_length (xs : List ℚ) : (cummax xs).length = xs.length := by
  induction xs with
  | nil => rfl
  | cons x xs ih => simp [cummax, ih]

theorem cummax_chain' (xs : List ℚ) : List.Chain' (· ≤ ·) (cummax xs) := by
  induction xs with
  | nil => simp [cummax]
  | cons x xs ih =>
    rw [cummax]
    cases hc : cummax xs with
    | nil => simp
    | cons y ys =>
      rw [hc] at ih
      refine List.chain'_cons.mpr ⟨le_max_left x y, ?_⟩
      exact List.chain'_map_of_chain' _ (fun a b hab => max_le_max le_rfl hab) ih

theorem cummax_headD (xs : List ℚ) (d : ℚ) (h : xs ≠ []) :
    (cummax xs).headD d = xs.headD d := by
  cases xs with
  | nil => exact absurd rfl h
  | cons x xs => rfl

theorem cummax_getD_le (xs : List ℚ) (i : ℕ) (h : i < xs.length) :
    xs.getD i 0 ≤ (cummax xs).getD i 0 := by
  induction xs generalizing i with
  | nil => simp at h
  | cons x xs ih =>
    cases i with
    | zero => simp [cummax]
    | succ j =>
      have hj : j < xs.length := by simpa using h
      rw [cummax, List.getD_cons_succ, List.getD_cons_succ,
        getD_map_rat _ _ j (by simpa [cummax_length] using hj) 0 0]
      exact le_trans (ih j hj) (le_max_right _ _)

theorem cummax_eq_self (xs : List ℚ) (h : List.Chain' (· ≤ ·) xs) : cummax xs = xs := by
  induction xs with
  | nil => rfl
  | cons x xs ih =>
    have hch := (List.chain'_cons'.mp h).2
    rw [cummax, ih hch]
    have hall : ∀ y ∈ xs, x ≤ y := by
      have hp : List.Pairwise (· ≤ ·) (x :: xs) := List.chain'_iff_pairwise.mp h
      exact fun y hy => (List.pairwise_cons.mp hp).1 y hy
    have : xs.map (fun y => max x y) = xs := by
      calc xs.map (fun y => max x y) = xs.map id := by
            apply List.map_congr_left
            intro y hy
            simp [max_eq_right (hall y hy)]
        _ = xs := List.map_id xs
    rw [this]

theorem cummax_getLastD_le (xs : List ℚ) (h : xs ≠ []) :
    xs.getLastD 0 ≤ (cummax xs).getLastD 0 := by
  have hc : cummax xs ≠ [] := by
    intro hnil
    have := cummax_length xs
    rw [hnil] at this
    exact h (List.length_eq_zero.mp this.symm)
  rw [getLastD_eq_getD _ h 0 0, getLastD_eq_getD _ hc 0 0, cummax_length]
  have : 0 < xs.length := List.length_pos.mpr h
  exact cummax_getD_le xs _ (by omega)

/-! ## Splitting the total weight into positive and negative parts -/

theorem sum_take_split (lab : List Bool) (ws : List ℚ) (h : lab.length = ws.length) (k : ℕ) :
    ((List.zipWith wPos lab ws).take k).sum + ((List.zipWith wNeg lab ws).take k).sum =
      (ws.take k).sum := by
  induction lab generalizing ws k with
  | nil =>
    have : ws = [] := List.length_eq_zero.mp h.symm
    simp [this]
  | cons l ls ih =>
    cases ws with
    | nil => simp at h
    | cons w wss =>
      cases k with
      | zero => simp
      | succ k' =>
        have h' : ls.length = wss.length := by simpa using h
        have := ih wss h' k'
        simp only [List.zipWith_cons_cons, List.take_succ_cons, List.sum_cons]
        cases l <;> simp [wPos, wNeg] <;> linarith

theorem zipWith_wPos_nonneg (lab : List Bool) (ws : List ℚ) (hw : ∀ x ∈ ws, 0 ≤ x) :
    ∀ x ∈ List.zipWith wPos lab ws, 0 ≤ x := by
  intro x hx
  induction lab generalizing ws with
  | nil => simp at hx
  | cons l ls ih =>
    cases ws with
    | nil => simp at hx
    | cons w wss =>
      rw [List.zipWith_cons_cons, List.mem_cons] at hx
      rcases hx with rfl | hx'
      · cases l
        · simp [wPos]
        · simpa [wPos] using hw w (List.mem_cons_self _ _)
      · exact ih wss (fun y hy => hw y (List.mem_cons_of_mem _ hy)) hx'

theorem zipWith_wNeg_nonneg (lab : List Bool) (ws : List ℚ) (hw : ∀ x ∈ ws, 0 ≤ x) :
    ∀ x ∈ List.zipWith wNeg lab ws, 0 ≤ x := by
  intro x hx
  induction lab generalizing ws with
  | nil => simp at hx
  | cons l ls ih =>
    cases ws with
    | nil => simp at hx
    | cons w wss =>
      rw [List.zipWith_cons_cons, List.mem_cons] at hx
      rcases hx with rfl | hx'
      · cases l
        · simpa [wNeg] using hw w (List.mem_cons_self _ _)
        · simp [wNeg]
      · exact ih wss (fun y hy => hw y (List.mem_cons_of_mem _ hy)) hx'

/-! ## `thresholdIdxs` lemmas -/

theorem thresholdIdxs_ne_nil (s : List ℚ) : thresholdIdxs s ≠ [] := by
  simp [thresholdIdxs]

theorem thresholdIdxs_getLastD (s : List ℚ) (d : ℕ) :
    (thresholdIdxs s).getLastD d = s.length - 1 := by
  unfold thresholdIdxs
  rw [List.getLastD_eq_getLast?, List.getLast?_append]
  rfl

theorem thresholdIdxs_mem_lt (s : List ℚ) (h : 1 ≤ s.length) :
    ∀ i ∈ thresholdIdxs s, i < s.length := by
  intro i hi
  rcases List.mem_append.mp hi with hf | hl
  · have := List.mem_range.mp (List.mem_filter.mp hf).1
    omega
  · rw [List.mem_singleton] at hl
    omega

theorem thresholdIdxs_mem_elim (s : List ℚ) {i : ℕ} (hi : i ∈ thresholdIdxs s) :
    (i < s.length - 1 ∧ s.getD i 0 ≠ s.getD (i + 1) 0) ∨ i = s.length - 1 := by
  rcases List.mem_append.mp hi with hf | hl
  · left
    have h1 := List.mem_range.mp (List.mem_filter.mp hf).1
    have h2 := (List.mem_filter.mp hf).2
    simp only [decide_eq_true_eq] at h2
    exact ⟨h1, h2⟩
  · right
    exact List.mem_singleton.mp hl

theorem thresholdIdxs_pairwise (s : List ℚ) :
    List.Pairwise (· < ·) (thresholdIdxs s) := by
  unfold thresholdIdxs
  rw [List.pairwise_append]
  refine ⟨List.Pairwise.filter _ (List.pairwise_lt_range _), by simp, ?_⟩
  intro x hx y hy
  rw [List.mem_singleton] at hy
  have := List.mem_range.mp (List.mem_filter.mp hx).1
  omega

/-! ## `argsortDesc` lemmas -/

theorem argsortDesc_perm (s : List ℚ) : (argsortDesc s).Perm (List.range s.length) :=
  (List.reverse_perm _).trans (List.mergeSort_perm _ _)

theorem argsortDesc_length (s : List ℚ) : (argsortDesc s).length = s.length := by
  rw [(argsortDesc_perm s).length_eq, List.length_range]

theorem argsortDesc_mem_lt (s : List ℚ) : ∀ i ∈ argsortDesc s, i < s.length := by
  intro i hi
  exact List.mem_range.mp ((argsortDesc_perm s).mem_iff.mp hi)

theorem argsortDesc_sorted (s : List ℚ) :
    List.Pairwise (fun i j => s.getD j 0 ≤ s.getD i 0) (argsortDesc s) := by
  rw [argsortDesc, List.pairwise_reverse]
  have hs := @List.sorted_mergeSort ℕ
    (fun i j => decide (s.getD i 0 ≤ s.getD j 0))
    (fun a b c hab hbc => by
      simp only [decide_eq_true_eq] at *
      exact le_trans hab hbc)
    (fun a b => by
      simp only [Bool.or_eq_true, decide_eq_true_eq]
      exact le_total _ _)
    (List.range s.length)
  exact hs.imp (fun hab => by simpa using hab)

theorem map_getD_range (l : List ℚ) (d : ℚ) :
    (List.range l.length).map (fun i => l.getD i d) = l := by
  apply List.ext_getElem
  · simp
  · intro i h1 h2
    simp only [List.getElem_map, List.getElem_range]
    exact List.getD_eq_getElem l d h2

theorem map_getD_range_bool (l : List Bool) (d : Bool) :
    (List.range l.length).map (fun i => l.getD i d) = l := by
  apply List.ext_getElem
  · simp
  · intro i h1 h2
    simp only [List.getElem_map, List.getElem_range]
    exact List.getD_eq_getElem l d h2

theorem argsortDesc_map_perm (s : List ℚ) (l : List ℚ) (hl : l.length = s.length) (d : ℚ) :
    ((argsortDesc s).map (fun i => l.getD i d)).Perm l := by
  refine ((argsortDesc_perm s).map _).trans ?_
  rw [← hl, map_getD_range]

theorem argsortDesc_map_perm_bool (s : List ℚ) (l : List Bool) (hl : l.length = s.length)
    (d : Bool) : ((argsortDesc s).map (fun i => l.getD i d)).Perm l := by
  refine ((argsortDesc_perm s).map _).trans ?_
  rw [← hl, map_getD_range_bool]

/-- The sorted score list is descending (non-strictly), stated index-wise. -/
theorem sortedScores_desc (sc : List ℚ) {i j : ℕ}
    (hij : i ≤ j) (hj : j < sc.length) :
    ((argsortDesc sc).map (fun k => sc.getD k 0)).getD j 0 ≤
      ((argsortDesc sc).map (fun k => sc.getD k 0)).getD i 0 := by
  rcases eq_or_lt_of_le hij with rfl | hlt
  · exact le_rfl
  have hlen : ((argsortDesc sc).map (fun k => sc.getD k 0)).length = sc.length := by
    rw [List.length_map, argsortDesc_length]
  have hp : List.Pairwise (fun a b => b ≤ a)
      ((argsortDesc sc).map (fun k => sc.getD k 0)) := by
    rw [List.pairwise_map]
    exact argsortDesc_sorted sc
  rw [List.pairwise_iff_getElem] at hp
  have hi' : i < ((argsortDesc sc).map (fun k => sc.getD k 0)).length := by omega
  have hj' : j < ((argsortDesc sc).map (fun k => sc.getD k 0)).length := by omega
  have := hp i j hi' hj' hlt
  rw [List.getD_eq_getElem _ _ hi', List.getD_eq_getElem _ _ hj']
  exact this

/-! ## Generic indexing helpers -/

theorem getD_map_gen {α β : Type} (f : α → β) (l : List α) (i : ℕ) (h : i < l.length)
    (d : β) (d' : α) : (l.map f).getD i d = f (l.getD i d') := by
  rw [List.getD_eq_getElem _ _ (by simpa using h), List.getD_eq_getElem _ _ h,
    List.getElem_map]

theorem getLastD_map_gen {α β : Type} (f : α → β) (l : List α) (h : l ≠ [])
    (d : β) (d' : α) : (l.map f).getLastD d = f (l.getLastD d') := by
  have h1 : 0 < l.length := List.length_pos.mpr h
  rw [List.getLastD_eq_getLast?, List.getLastD_eq_getLast?,
    List.getLast?_eq_getElem?, List.getLast?_eq_getElem?, List.length_map,
    List.getElem?_eq_getElem (by rw [List.length_map]; omega :
      l.length - 1 < (l.map f).length),
    List.getElem?_eq_getElem (by omega : l.length - 1 < l.length)]
  simp only [List.getElem_map, Option.getD_some,
    List.getD_eq_getElem l d' (by omega : l.length - 1 < l.length)]

theorem zipWith_map_same {α β γ δ : Type} (f : β → γ → δ) (g : α → β) (h : α → γ)
    (l : List α) : List.zipWith f (l.map g) (l.map h) = l.map (fun x => f (g x) (h x)) := by
  induction l with
  | nil => rfl
  | cons x xs ih => simp [ih]

theorem chain'_map_of_pairwise_mono {f : ℕ → ℚ} {N : ℕ} (t : List ℕ)
    (hp : List.Pairwise (· < ·) t) (hmem : ∀ i ∈ t, i < N)
    (hmono : ∀ i j, i ≤ j → j < N → f i ≤ f j) :
    List.Chain' (· ≤ ·) (t.map f) := by
  apply List.Pairwise.chain'
  rw [List.pairwise_map]
  refine hp.imp_of_mem ?_
  intro a b ha hb hab
  exact hmono a b (le_of_lt hab) (hmem b hb)

/-! ## Per-column count facts

Throughout, `s` is the descending-sorted score list, `lab` and `ws` the
correspondingly sorted labels and one weight column, and `tidx` the
threshold boundary indices. -/

theorem tpsCol_getD (lab : List Bool) (ws : List ℚ) (s : List ℚ) (k : ℕ)
    (hk : k < (thresholdIdxs s).length) :
    (tpsCol lab ws (thresholdIdxs s)).getD k 0 =
      (cumsum (List.zipWith wPos lab ws)).getD ((thresholdIdxs s).getD k 0) 0 :=
  getD_map_gen _ _ k hk 0 0

theorem fpsCol_eq (lab : List Bool) (ws : List ℚ) (s : List ℚ)
    (hlw : lab.length = ws.length) (hws : ws.length = s.length) (hn : 1 ≤ s.length) :
    fpsCol lab ws (thresholdIdxs s) =
      (thresholdIdxs s).map (fun i => (cumsum (List.zipWith wNeg lab ws)).getD i 0) := by
  unfold fpsCol tpsCol
  rw [zipWith_map_same]
  apply List.map_congr_left
  intro i hi
  have hilt : i < ws.length := by
    rw [hws]; exact thresholdIdxs_mem_lt s hn i hi
  have hpos : (List.zipWith wPos lab ws).length = ws.length := by
    rw [List.length_zipWith, hlw, min_self]
  have hneg : (List.zipWith wNeg lab ws).length = ws.length := by
    rw [List.length_zipWith, hlw, min_self]
  rw [cumsum_getD _ _ hilt, cumsum_getD _ _ (by omega), cumsum_getD _ _ (by omega)]
  have := sum_take_split lab ws (by omega) (i + 1)
  linarith

theorem tpsCol_length (lab : List Bool) (ws : List ℚ) (t : List ℕ) :
    (tpsCol lab ws t).length = t.length := by
  simp [tpsCol]

theorem fpsCol_length (lab : List Bool) (ws : List ℚ) (t : List ℕ) :
    (fpsCol lab ws t).length = t.length := by
  simp [fpsCol, tpsCol]

theorem tpsCol_getLastD (lab : List Bool) (ws : List ℚ) (s : List ℚ)
    (hlw : lab.length = ws.length) (hws : ws.length = s.length) (hn : 1 ≤ s.length) :
    (tpsCol lab ws (thresholdIdxs s)).getLastD 0 = (List.zipWith wPos lab ws).sum := by
  unfold tpsCol
  rw [getLastD_map_gen _ _ (thresholdIdxs_ne_nil s) 0 0, thresholdIdxs_getLastD]
  have hpos : (List.zipWith wPos lab ws).length = s.length := by
    rw [List.length_zipWith, hlw, hws, min_self]
  rw [cumsum_getD _ _ (by omega)]
  congr 1
  exact List.take_of_length_le (by omega)

theorem fpsCol_getLastD (lab : List Bool) (ws : List ℚ) (s : List ℚ)
    (hlw : lab.length = ws.length) (hws : ws.length = s.length) (hn : 1 ≤ s.length) :
    (fpsCol lab ws (thresholdIdxs s)).getLastD 0 = (List.zipWith wNeg lab ws).sum := by
  rw [fpsCol_eq lab ws s hlw hws hn,
    getLastD_map_gen _ _ (thresholdIdxs_ne_nil s) 0 0, thresholdIdxs_getLastD]
  have hneg : (List.zipWith wNeg lab ws).length = s.length := by
    rw [List.length_zipWith, hlw, hws, min_self]
  rw [cumsum_getD _ _ (by omega)]
  congr 1
  exact List.take_of_length_le (by omega)

theorem tpsCol_chain (lab : List Bool) (ws : List ℚ) (s : List ℚ)
    (hlw : lab.length = ws.length) (hws : ws.length = s.length) (hn : 1 ≤ s.length)
    (hw : ∀ x ∈ ws, 0 ≤ x) :
    List.Chain' (· ≤ ·) ((0 : ℚ) :: tpsCol lab ws (thresholdIdxs s)) := by
  have hpos : (List.zipWith wPos lab ws).length = s.length := by
    rw [List.length_zipWith, hlw, hws, min_self]
  have hnn := zipWith_wPos_nonneg lab ws hw
  rw [List.chain'_cons']
  refine ⟨?_, ?_⟩
  · intro y hy
    have hym : y ∈ tpsCol lab ws (thresholdIdxs s) := List.mem_of_mem_head? hy
    rcases List.mem_map.mp hym with ⟨i, hi, rfl⟩
    exact cumsum_getD_nonneg _ hnn _ (by
      rw [hpos]; exact thresholdIdxs_mem_lt s hn i hi)
  · refine chain'_map_of_pairwise_mono _ (thresholdIdxs_pairwise s)
      (thresholdIdxs_mem_lt s hn) ?_
    intro i j hij hj
    exact cumsum_getD_mono _ hnn hij (by rw [hpos]; exact hj)

theorem tpsCol_mem_nonneg (lab : List Bool) (ws : List ℚ) (s : List ℚ)
    (hlw : lab.length = ws.length) (hws : ws.length = s.length) (hn : 1 ≤ s.length)
    (hw : ∀ x ∈ ws, 0 ≤ x) :
    ∀ v ∈ tpsCol lab ws (thresholdIdxs s), 0 ≤ v := by
  have hpos : (List.zipWith wPos lab ws).length = s.length := by
    rw [List.length_zipWith, hlw, hws, min_self]
  intro v hv
  rcases List.mem_map.mp hv with ⟨i, hi, rfl⟩
  exact cumsum_getD_nonneg _ (zipWith_wPos_nonneg lab ws hw) _ (by
    rw [hpos]; exact thresholdIdxs_mem_lt s hn i hi)

theorem fpsCol_chain (lab : List Bool) (ws : List ℚ) (s : List ℚ)
    (hlw : lab.length = ws.length) (hws : ws.length = s.length) (hn : 1 ≤ s.length)
    (hw : ∀ x ∈ ws, 0 ≤ x) :
    List.Chain' (· ≤ ·) ((0 : ℚ) :: fpsCol lab ws (thresholdIdxs s)) := by
  have hneg : (List.zipWith wNeg lab ws).length = s.length := by
    rw [List.length_zipWith, hlw, hws, min_self]
  have hnn := zipWith_wNeg_nonneg lab ws hw
  rw [fpsCol_eq lab ws s hlw hws hn, List.chain'_cons']
  refine ⟨?_, ?_⟩
  · intro y hy
    have hym := List.mem_of_mem_head? hy
    rcases List.mem_map.mp hym with ⟨i, hi, rfl⟩
    exact cumsum_getD_nonneg _ hnn _ (by
      rw [hneg]; exact thresholdIdxs_mem_lt s hn i hi)
  · refine chain'_map_of_pairwise_mono _ (thresholdIdxs_pairwise s)
      (thresholdIdxs_mem_lt s hn) ?_
    intro i j hij hj
    exact cumsum_getD_mono _ hnn hij (by rw [hneg]; exact hj)

theorem fpsCol_mem_nonneg (lab : List Bool) (ws : List ℚ) (s : List ℚ)
    (hlw : lab.length = ws.length) (hws : ws.length = s.length) (hn : 1 ≤ s.length)
    (hw : ∀ x ∈ ws, 0 ≤ x) :
    ∀ v ∈ fpsCol lab ws (thresholdIdxs s), 0 ≤ v := by
  have hneg : (List.zipWith wNeg lab ws).length = s.length := by
    rw [List.length_zipWith, hlw, hws, min_self]
  rw [fpsCol_eq lab ws s hlw hws hn]
  intro v hv
  rcases List.mem_map.mp hv with ⟨i, hi, rfl⟩
  exact cumsum_getD_nonneg _ (zipWith_wNeg_nonneg lab ws hw) _ (by
    rw [hneg]; exact thresholdIdxs_mem_lt s hn i hi)

/-- At every real threshold, true positives plus false positives equal the
cumulative total weight there. -/
theorem tps_add_fps_getD (lab : List Bool) (ws : List ℚ) (s : List ℚ)
    (hlw : lab.length = ws.length) (hws : ws.length = s.length) (hn : 1 ≤ s.length)
    (k : ℕ) (hk : k < (thresholdIdxs s).length) :
    (tpsCol lab ws (thresholdIdxs s)).getD k 0 + (fpsCol lab ws (thresholdIdxs s)).getD k 0 =
      (cumsum ws).getD ((thresholdIdxs s).getD k 0) 0 := by
  have hil : (thresholdIdxs s).getD k 0 < s.length := by
    refine thresholdIdxs_mem_lt s hn _ ?_
    rw [List.getD_eq_getElem _ _ hk]
    exact List.getElem_mem _
  have hpos : (List.zipWith wPos lab ws).length = s.length := by
    rw [List.length_zipWith, hlw, hws, min_self]
  have hneg : (List.zipWith wNeg lab ws).length = s.length := by
    rw [List.length_zipWith, hlw, hws, min_self]
  rw [tpsCol_getD lab ws s k hk, fpsCol_eq lab ws s hlw hws hn,
    getD_map_gen _ _ k hk 0 0, cumsum_getD _ _ (by omega),
    cumsum_getD _ _ (by omega), cumsum_getD _ _ (by omega)]
  exact sum_take_split lab ws (by omega) _

/-! ## Per-column postcondition bundle -/

theorem getLastD_mem (l : List ℚ) (h : l ≠ []) (d : ℚ) : l.getLastD d ∈ l := by
  rw [getLastD_eq_getD l h d 0, List.getD_eq_getElem l 0 (by
    have := List.length_pos.mpr h
    omega)]
  exact List.getElem_mem _

theorem getD_mem_rat (l : List ℚ) (i : ℕ) (h : i < l.length) (d : ℚ) : l.getD i d ∈ l := by
  rw [List.getD_eq_getElem l d h]
  exact List.getElem_mem _

theorem map_epsilon_getLastD (c : List ℚ) (h : c ≠ []) :
    (c.map (fun x => EPSILON * x)).getLastD 0 = EPSILON * c.getLastD 0 :=
  getLastD_map_rat _ c h 0 0

theorem headD_map_rat (f : ℚ → ℚ) (l : List ℚ) (h : l ≠ []) (d d' : ℚ) :
    (l.map f).headD d = f (l.headD d') := by
  cases l with
  | nil => exact absurd rfl h
  | cons x xs => rfl

theorem all_zero_of_chain_last (c : List ℚ) (hc : List.Chain' (· ≤ ·) c)
    (hn : ∀ v ∈ c, 0 ≤ v) (hl : c.getLastD 0 = 0) : ∀ v ∈ c, v = 0 :=
  fun v hv => le_antisymm (hl ▸ chain'_le_getLastD c hc v hv) (hn v hv)

theorem epsilon_pos : (0 : ℚ) < EPSILON := by norm_num [EPSILON]

/-- After the pseudo-point correction and the running-maximum pass, a raw
column pair satisfies every per-column postcondition (and the running
maximum is the identity, because the corrected column is already
monotone). -/
theorem rawCol_finish (f t : List ℚ) (h : RawCol f t) :
    GoodCol (cummax (nv_add_pseudo_points f t).1) (nv_add_pseudo_points f t).2 ∧
      cummax (nv_add_pseudo_points f t).1 = (nv_add_pseudo_points f t).1 := by
  obtain ⟨hlen, h2, hfh, hth, hfc, htc, hfn, htn, hsum⟩ := h
  have hflen : 2 ≤ f.length := by omega
  have hfne : f ≠ [] := by
    intro hnil; rw [hnil] at hflen; simp at hflen
  have htne : t ≠ [] := by
    intro hnil; rw [hnil] at h2; simp at h2
  have hfl0 : 0 ≤ f.getLastD 0 := hfn _ (getLastD_mem f hfne 0)
  have htl0 : 0 ≤ t.getLastD 0 := htn _ (getLastD_mem t htne 0)
  have hlast_sum : 0 < t.getLastD 0 + f.getLastD 0 := by
    have := hsum (t.length - 1) (by omega) (by omega)
    rwa [← getLastD_eq_getD t htne 0 0, ← (by rw [hlen] : f.length - 1 = t.length - 1),
      ← getLastD_eq_getD f hfne 0 0] at this
  by_cases hf : f.getLastD 0 = 0
  · -- false-positive total is zero: the column becomes `EPSILON * tps`
    have htpos : 0 < t.getLastD 0 := by linarith
    have hlf : lastZero f = true := by unfold lastZero; rw [hf]; simp
    have hlt : lastZero t = false := by
      unfold lastZero
      simp only [decide_eq_false_iff_not]
      exact ne_of_gt htpos
    have hfix : nv_add_pseudo_points f t =
        (t.map (fun x => EPSILON * x), t) := by
      unfold nv_add_pseudo_points
      rw [hlf, hlt]
      simp
    rw [hfix]
    dsimp only
    have hfzero : ∀ v ∈ f, v = 0 := all_zero_of_chain_last f hfc hfn hf
    have hchain : List.Chain' (· ≤ ·) (t.map (fun x => EPSILON * x)) :=
      chain'_le_map_epsilon t htc
    rw [cummax_eq_self _ hchain]
    refine ⟨⟨by simp [hlen], h2, ?_, hth, hchain, htc, ?_, htn, ?_, htpos, ?_⟩, rfl⟩
    · rw [headD_map_rat _ t htne 0 0, hth, mul_zero]
    · intro v hv
      rcases List.mem_map.mp hv with ⟨x, hx, rfl⟩
      exact mul_nonneg (le_of_lt epsilon_pos) (htn x hx)
    · rw [map_epsilon_getLastD t htne]
      exact mul_pos epsilon_pos htpos
    · intro i h1 hi
      have hfi : f.getD i 0 = 0 := hfzero _ (getD_mem_rat f i (by omega) 0)
      have hti : 0 < t.getD i 0 := by
        have := hsum i h1 hi
        rw [hfi] at this
        linarith
      rw [getD_map_rat _ t i hi 0 0]
      nlinarith [epsilon_pos]
  · -- false-positive total is nonzero
    have hfpos : 0 < f.getLastD 0 := lt_of_le_of_ne hfl0 (Ne.symm hf)
    by_cases ht : t.getLastD 0 = 0
    · -- true-positive total is zero: the column becomes `EPSILON * fps`
      have hlf : lastZero f = false := by
        unfold lastZero
        simp only [decide_eq_false_iff_not]
        exact hf
      have hlt : lastZero t = true := by unfold lastZero; rw [ht]; simp
      have hfix : nv_add_pseudo_points f t = (f, f.map (fun x => EPSILON * x)) := by
        unfold nv_add_pseudo_points
        rw [hlf, hlt]
        simp
      rw [hfix]
      dsimp only
      have htzero : ∀ v ∈ t, v = 0 := all_zero_of_chain_last t htc htn ht
      rw [cummax_eq_self _ hfc]
      refine ⟨⟨by simp, by simp [hflen], hfh, ?_, hfc, chain'_le_map_epsilon f hfc, hfn, ?_,
        hfpos, ?_, ?_⟩, rfl⟩
      · rw [headD_map_rat _ f hfne 0 0, hfh, mul_zero]
      · intro v hv
        rcases List.mem_map.mp hv with ⟨x, hx, rfl⟩
        exact mul_nonneg (le_of_lt epsilon_pos) (hfn x hx)
      · rw [map_epsilon_getLastD f hfne]
        exact mul_pos epsilon_pos hfpos
      · intro i h1 hi
        rw [List.length_map] at hi
        have hti : t.getD i 0 = 0 := htzero _ (getD_mem_rat t i (by omega) 0)
        have hfi : 0 < f.getD i 0 := by
          have := hsum i h1 (by omega)
          rw [hti] at this
          linarith
        rw [getD_map_rat _ f i hi 0 0]
        nlinarith [epsilon_pos]
    · -- no correction needed
      have hlf : lastZero f = false := by
        unfold lastZero
        simp only [decide_eq_false_iff_not]
        exact hf
      have hlt : lastZero t = false := by
        unfold lastZero
        simp only [decide_eq_false_iff_not]
        exact ht
      have hfix : nv_add_pseudo_points f t = (f, t) := by
        unfold nv_add_pseudo_points
        rw [hlf, hlt]
        simp
      rw [hfix]
      dsimp only
      rw [cummax_eq_self _ hfc]
      exact ⟨⟨hlen, h2, hfh, hth, hfc, htc, hfn, htn, hfpos,
        lt_of_le_of_ne htl0 (Ne.symm ht), hsum⟩, rfl⟩

/-! ## The matrix-level correction acts column-wise -/

theorem zipWith_zipWith_same {α β γ δ : Type} (g : γ → β → δ) (h : α → β → γ)
    (A : List α) (B : List β) :
    List.zipWith g (List.zipWith h A B) B = List.zipWith (fun a b => g (h a b) b) A B := by
  induction A generalizing B with
  | nil => rfl
  | cons a as ih =>
    cases B with
    | nil => rfl
    | cons b bs => simp [ih]

/-- `add_pseudo_points` is `_nv_add_pseudo_points` applied to each aligned
column pair, together with the dtype promotion. -/
theorem add_pseudo_points_eq (fps tps : List (List ℚ)) (d : Dtype) :
    add_pseudo_points fps tps d =
      (List.zipWith (fun f t => (nv_add_pseudo_points f t).1) fps tps,
       List.zipWith (fun f t => (nv_add_pseudo_points f t).2) fps tps,
       (if fps.any lastZero || tps.any lastZero then Dtype.float else d),
       (if fps.any lastZero || tps.any lastZero then Dtype.float else d)) := by
  unfold add_pseudo_points
  dsimp only
  rw [zipWith_zipWith_same]
  rfl

theorem mem_zipWith_elim {α β γ : Type} (f : α → β → γ) {A : List α} {B : List β} {c : γ}
    (h : c ∈ List.zipWith f A B) :
    ∃ k, ∃ (ha : k < A.length) (hb : k < B.length), c = f A[k] B[k] := by
  rw [List.mem_iff_getElem] at h
  obtain ⟨i, hi, hic⟩ := h
  have hlen : (List.zipWith f A B).length = min A.length B.length := List.length_zipWith _ _ _
  refine ⟨i, by omega, by omega, ?_⟩
  rw [← hic, List.getElem_zipWith]

theorem getD_zipWith {α β γ : Type} (f : α → β → γ) (A : List α) (B : List β)
    (k : ℕ) (ha : k < A.length) (hb : k < B.length) (d : γ) (da : α) (db : β) :
    (List.zipWith f A B).getD k d = f (A.getD k da) (B.getD k db) := by
  rw [List.getD_eq_getElem _ _ (by rw [List.length_zipWith]; omega),
    List.getD_eq_getElem _ _ ha, List.getD_eq_getElem _ _ hb, List.getElem_zipWith]

theorem chain'_le_iff_diffsQ (c : List ℚ) :
    List.Chain' (· ≤ ·) c ↔ ∀ dl ∈ diffsQ c, 0 ≤ dl := by
  induction c with
  | nil => simp [diffsQ]
  | cons x xs ih =>
    cases xs with
    | nil => simp [diffsQ]
    | cons y ys =>
      rw [List.chain'_cons, ih]
      have hd : diffsQ (x :: y :: ys) = (y - x) :: diffsQ (y :: ys) := by
        unfold diffsQ
        rw [List.tail_cons, List.tail_cons, List.zipWith_cons_cons]
      rw [hd]
      constructor
      · rintro ⟨hxy, hrest⟩ dl hdl
        rcases List.mem_cons.mp hdl with rfl | hdl'
        · linarith
        · exact hrest dl hdl'
      · intro hall
        refine ⟨by linarith [hall (y - x) (List.mem_cons_self _ _)], ?_⟩
        intro dl hdl
        exact hall dl (List.mem_cons_of_mem _ hdl)

/-- The tail stages of the engine (lines 148–158) succeed on raw count
matrices, and the resulting columns satisfy every per-column postcondition. -/
theorem finishEngine_eq (fps0 tps0 : List (List ℚ)) (thr : List (WithTop ℚ)) (d : Dtype)
    (hlen : fps0.length = tps0.length)
    (hall : ∀ k, (hk : k < tps0.length) →
      RawCol (fps0.getD k []) (tps0.getD k [])) :
    finishEngine fps0 tps0 thr d =
      some (List.zipWith (fun f t => (nv_add_pseudo_points f t).1) fps0 tps0,
            List.zipWith (fun f t => (nv_add_pseudo_points f t).2) fps0 tps0,
            thr,
            (if fps0.any lastZero || tps0.any lastZero then Dtype.float else d),
            (if fps0.any lastZero || tps0.any lastZero then Dtype.float else d)) := by
  have hgood : ∀ k, (hk : k < tps0.length) →
      GoodCol (cummax (nv_add_pseudo_points (fps0.getD k []) (tps0.getD k [])).1)
        (nv_add_pseudo_points (fps0.getD k []) (tps0.getD k [])).2 ∧
      cummax (nv_add_pseudo_points (fps0.getD k []) (tps0.getD k [])).1 =
        (nv_add_pseudo_points (fps0.getD k []) (tps0.getD k [])).1 :=
    fun k hk => rawCol_finish _ _ (hall k hk)
  unfold finishEngine
  rw [add_pseudo_points_eq]
  dsimp only
  have hg1 : (∀ c ∈ List.zipWith (fun f t => (nv_add_pseudo_points f t).1) fps0 tps0,
      0 < c.getLastD 0) ∧
      (∀ c ∈ List.zipWith (fun f t => (nv_add_pseudo_points f t).2) fps0 tps0,
      0 < c.getLastD 0) := by
    constructor
    · intro c hc
      obtain ⟨k, ha, hb, rfl⟩ := mem_zipWith_elim _ hc
      obtain ⟨hgc, hcm⟩ := hgood k hb
      have := hgc.2.2.2.2.2.2.2.2.1
      rw [hcm] at this
      rwa [List.getD_eq_getElem _ _ ha, List.getD_eq_getElem _ _ hb] at this
    · intro c hc
      obtain ⟨k, ha, hb, rfl⟩ := mem_zipWith_elim _ hc
      obtain ⟨hgc, _⟩ := hgood k hb
      have := hgc.2.2.2.2.2.2.2.2.2.1
      rwa [List.getD_eq_getElem _ _ ha, List.getD_eq_getElem _ _ hb] at this
  rw [if_pos hg1, if_pos rfl]
  have hg3 : (∀ c ∈ (List.zipWith (fun f t => (nv_add_pseudo_points f t).1) fps0 tps0).map
        cummax, ∀ dl ∈ diffsQ c, 0 ≤ dl) ∧
      (∀ c ∈ List.zipWith (fun f t => (nv_add_pseudo_points f t).2) fps0 tps0,
        ∀ dl ∈ diffsQ c, 0 ≤ dl) := by
    constructor
    · intro c hc
      rw [List.map_zipWith] at hc
      obtain ⟨k, ha, hb, rfl⟩ := mem_zipWith_elim _ hc
      obtain ⟨hgc, _⟩ := hgood k hb
      have := hgc.2.2.2.2.1
      rw [List.getD_eq_getElem _ _ ha, List.getD_eq_getElem _ _ hb] at this
      exact (chain'_le_iff_diffsQ _).mp this
    · intro c hc
      obtain ⟨k, ha, hb, rfl⟩ := mem_zipWith_elim _ hc
      obtain ⟨hgc, _⟩ := hgood k hb
      have := hgc.2.2.2.2.2.1
      rw [List.getD_eq_getElem _ _ ha, List.getD_eq_getElem _ _ hb] at this
      exact (chain'_le_iff_diffsQ _).mp this
  rw [if_pos hg3]
  refine congrArg some ?_
  have hfst : (List.zipWith (fun f t => (nv_add_pseudo_points f t).1) fps0 tps0).map cummax
      = List.zipWith (fun f t => (nv_add_pseudo_points f t).1) fps0 tps0 := by
    rw [List.map_zipWith]
    apply List.ext_getElem
    · simp
    · intro i h1 h2
      rw [List.getElem_zipWith, List.getElem_zipWith]
      have hb : i < tps0.length := by
        rw [List.length_zipWith] at h1
        omega
      have ha : i < fps0.length := by omega
      have := (hgood i hb).2
      rwa [List.getD_eq_getElem _ _ ha, List.getD_eq_getElem _ _ hb] at this
  rw [hfst]

/-! ## Threshold sequence facts -/

theorem thresholdIdxs_pairwise_vals (s : List ℚ)
    (hdesc : ∀ i j, i ≤ j → j < s.length → s.getD j 0 ≤ s.getD i 0) (hn : 1 ≤ s.length) :
    List.Pairwise (fun a b => s.getD b 0 < s.getD a 0) (thresholdIdxs s) := by
  refine (thresholdIdxs_pairwise s).imp_of_mem ?_
  intro a b ha hb hab
  have hbn : b < s.length := thresholdIdxs_mem_lt s hn b hb
  rcases thresholdIdxs_mem_elim s ha with ⟨h1, hne⟩ | rfl
  · have h3 : s.getD (a + 1) 0 ≤ s.getD a 0 := hdesc a (a + 1) (by omega) (by omega)
    have h4 : s.getD b 0 ≤ s.getD (a + 1) 0 := hdesc (a + 1) b (by omega) hbn
    rcases lt_or_eq_of_le h3 with hlt | heq
    · exact lt_of_le_of_lt h4 hlt
    · exact absurd heq.symm hne
  · omega

/-- Every position's score value is attained at some threshold boundary (the
end of its run of equal scores). -/
theorem exists_runEnd (s : List ℚ)
    (hdesc : ∀ i j, i ≤ j → j < s.length → s.getD j 0 ≤ s.getD i 0) (hn : 1 ≤ s.length)
    (i : ℕ) (hi : i < s.length) :
    ∃ j ∈ thresholdIdxs s, s.getD j 0 = s.getD i 0 := by
  generalize hk : s.length - 1 - i = k
  induction k using Nat.strong_induction_on generalizing i with
  | _ k ih =>
    by_cases hcase : i = s.length - 1
    · refine ⟨i, ?_, rfl⟩
      unfold thresholdIdxs
      subst hcase
      exact List.mem_append.mpr (Or.inr (List.mem_singleton.mpr rfl))
    · have hi1 : i < s.length - 1 := by omega
      by_cases hne : s.getD i 0 ≠ s.getD (i + 1) 0
      · refine ⟨i, ?_, rfl⟩
        unfold thresholdIdxs
        refine List.mem_append.mpr (Or.inl (List.mem_filter.mpr ⟨List.mem_range.mpr hi1, ?_⟩))
        simpa using hne
      · push_neg at hne
        obtain ⟨j, hj, hjv⟩ := ih (s.length - 1 - (i + 1)) (by omega) (i + 1) (by omega) rfl
        exact ⟨j, hj, by rw [hjv, ← hne]⟩

/-- The full threshold list (with its `+inf` sentinel) is strictly
decreasing. -/
theorem clfThresholds_chain (s : List ℚ)
    (hdesc : ∀ i j, i ≤ j → j < s.length → s.getD j 0 ≤ s.getD i 0) (hn : 1 ≤ s.length) :
    List.Chain' (fun a b => b < a) (clfThresholds s (thresholdIdxs s)) := by
  unfold clfThresholds
  rw [List.chain'_cons']
  constructor
  · intro y hy
    have hym := List.mem_of_mem_head? hy
    rcases List.mem_map.mp hym with ⟨i, _, rfl⟩
    exact WithTop.coe_lt_top _
  · refine List.Pairwise.chain' ?_
    rw [List.pairwise_map]
    refine (thresholdIdxs_pairwise_vals s hdesc hn).imp ?_
    intro a b hab
    exact (WithTop.coe_lt_coe).mpr hab

theorem clfThresholds_length (s : List ℚ) :
    (clfThresholds s (thresholdIdxs s)).length = (thresholdIdxs s).length + 1 := by
  simp [clfThresholds]

theorem clfThresholds_tail_mem (s : List ℚ) (sc : List ℚ) (hperm : s.Perm sc)
    (hdesc : ∀ i j, i ≤ j → j < s.length → s.getD j 0 ≤ s.getD i 0) (hn : 1 ≤ s.length)
    (q : ℚ) :
    (q : WithTop ℚ) ∈ (clfThresholds s (thresholdIdxs s)).tail ↔ q ∈ sc := by
  unfold clfThresholds
  rw [List.tail_cons]
  constructor
  · intro hq
    rcases List.mem_map.mp hq with ⟨i, hi, hiv⟩
    have : s.getD i 0 = q := by exact_mod_cast hiv
    rw [← this]
    refine hperm.mem_iff.mp ?_
    exact getD_mem_rat s i (thresholdIdxs_mem_lt s hn i hi) 0
  · intro hq
    have hqs : q ∈ s := hperm.mem_iff.mpr hq
    rw [List.mem_iff_getElem] at hqs
    obtain ⟨i, hi, hiv⟩ := hqs
    obtain ⟨j, hj, hjv⟩ := exists_runEnd s hdesc hn i hi
    refine List.mem_map.mpr ⟨j, hj, ?_⟩
    rw [hjv, List.getD_eq_getElem s 0 hi, hiv]

/-! ## Raw columns satisfy the raw-column invariants -/

theorem rawCol_holds (lab : List Bool) (ws : List ℚ) (s : List ℚ)
    (hls : lab.length = s.length) (hws : ws.length = s.length) (hn : 1 ≤ s.length)
    (hw : ∀ x ∈ ws, 0 < x) :
    RawCol ((0 : ℚ) :: fpsCol lab ws (thresholdIdxs s))
      ((0 : ℚ) :: tpsCol lab ws (thresholdIdxs s)) := by
  have hlw : lab.length = ws.length := by omega
  have hw' : ∀ x ∈ ws, 0 ≤ x := fun x hx => le_of_lt (hw x hx)
  have htne := thresholdIdxs_ne_nil s
  have htlen : 1 ≤ (thresholdIdxs s).length := List.length_pos.mpr htne
  refine ⟨?_, ?_, rfl, rfl, ?_, ?_, ?_, ?_, ?_⟩
  · simp [fpsCol_length, tpsCol_length]
  · simp only [List.length_cons, tpsCol_length]
    omega
  · exact fpsCol_chain lab ws s hlw hws hn hw'
  · exact tpsCol_chain lab ws s hlw hws hn hw'
  · intro v hv
    rcases List.mem_cons.mp hv with rfl | hv'
    · exact le_rfl
    · exact fpsCol_mem_nonneg lab ws s hlw hws hn hw' v hv'
  · intro v hv
    rcases List.mem_cons.mp hv with rfl | hv'
    · exact le_rfl
    · exact tpsCol_mem_nonneg lab ws s hlw hws hn hw' v hv'
  · intro i h1 hi
    obtain ⟨k, rfl⟩ : ∃ k, i = k + 1 := ⟨i - 1, by omega⟩
    simp only [List.length_cons, tpsCol_length] at hi
    have hk : k < (thresholdIdxs s).length := by omega
    rw [List.getD_cons_succ, List.getD_cons_succ,
      tps_add_fps_getD lab ws s hlw hws hn k hk]
    refine cumsum_getD_pos ws hw _ ?_
    rw [hws]
    refine thresholdIdxs_mem_lt s hn _ ?_
    rw [List.getD_eq_getElem _ _ hk]
    exact List.getElem_mem _

/-! ## The unweighted branch is the all-ones weighted branch -/

theorem zipWith_wPos_ones (lab : List Bool) :
    List.zipWith wPos lab (List.replicate lab.length 1) =
      lab.map (fun l => if l then (1 : ℚ) else 0) := by
  induction lab with
  | nil => rfl
  | cons l ls ih => simp [List.replicate_succ, wPos, ih]

theorem tpsColNone_eq (lab : List Bool) (t : List ℕ) :
    tpsColNone lab t = tpsCol lab (List.replicate lab.length 1) t := by
  unfold tpsColNone tpsCol
  rw [zipWith_wPos_ones]

theorem cumsum_ones_getD (n : ℕ) (i : ℕ) (hi : i < n) :
    (cumsum (List.replicate n (1 : ℚ))).getD i 0 = (i : ℚ) + 1 := by
  rw [cumsum_getD _ _ (by simpa using hi), List.take_replicate, List.sum_replicate]
  simp [min_eq_left (by omega : i + 1 ≤ n)]

theorem zipWith_self_map {α β γ : Type} (f : α → β → γ) (g : α → β) (l : List α) :
    List.zipWith f l (l.map g) = l.map (fun x => f x (g x)) := by
  induction l with
  | nil => rfl
  | cons x xs ih => simp [ih]

theorem fpsColNone_eq (lab : List Bool) (s : List ℚ)
    (hls : lab.length = s.length) (hn : 1 ≤ s.length) :
    fpsColNone lab (thresholdIdxs s) =
      fpsCol lab (List.replicate lab.length 1) (thresholdIdxs s) := by
  unfold fpsColNone fpsCol
  rw [← tpsColNone_eq, tpsColNone]
  rw [zipWith_self_map, zipWith_map_same]
  apply List.map_congr_left
  intro i hi
  have hilt : i < s.length := thresholdIdxs_mem_lt s hn i hi
  rw [cumsum_ones_getD lab.length i (by omega)]
  ring

theorem sum_wPos_ones (lab : List Bool) :
    (List.zipWith wPos lab (List.replicate lab.length 1)).sum =
      ((lab.filter (fun l => l)).length : ℚ) := by
  rw [zipWith_wPos_ones]
  induction lab with
  | nil => rfl
  | cons l ls ih =>
    cases l <;> simp [ih] <;> push_cast <;> ring

theorem sum_wNeg_ones (lab : List Bool) :
    (List.zipWith wNeg lab (List.replicate lab.length 1)).sum =
      ((lab.filter (fun l => !l)).length : ℚ) := by
  induction lab with
  | nil => rfl
  | cons l ls ih =>
    have : (l :: ls).length = ls.length + 1 := rfl
    rw [this, List.replicate_succ, List.zipWith_cons_cons, List.sum_cons, ih]
    cases l <;> simp [wNeg] <;> push_cast <;> ring

theorem nv_add_pseudo_points_length (f t : List ℚ) (h : f.length = t.length) :
    (nv_add_pseudo_points f t).1.length = f.length ∧
      (nv_add_pseudo_points f t).2.length = t.length := by
  unfold nv_add_pseudo_points
  dsimp only
  constructor
  · split_ifs <;> simp [h]
  · split_ifs <;> simp [h]

/-- The engine's unweighted branch, written as the weighted pipeline on a
single all-ones column, handed to the shared finish stage. -/
theorem clf_none_eq (y : List Bool) (sc : List ℚ) (h1 : sc.length = y.length)
    (h2 : 1 ≤ y.length) :
    binary_clf_curve y sc none =
      finishEngine
        ([List.replicate ((argsortDesc sc).map (fun i => y.getD i false)).length
            (1 : ℚ)].map (fun w => (0 : ℚ) ::
              fpsCol ((argsortDesc sc).map (fun i => y.getD i false)) w
                (thresholdIdxs ((argsortDesc sc).map (fun i => sc.getD i 0)))))
        ([List.replicate ((argsortDesc sc).map (fun i => y.getD i false)).length
            (1 : ℚ)].map (fun w => (0 : ℚ) ::
              tpsCol ((argsortDesc sc).map (fun i => y.getD i false)) w
                (thresholdIdxs ((argsortDesc sc).map (fun i => sc.getD i 0)))))
        (clfThresholds ((argsortDesc sc).map (fun i => sc.getD i 0))
          (thresholdIdxs ((argsortDesc sc).map (fun i => sc.getD i 0))))
        Dtype.int := by
  have hlab : ((argsortDesc sc).map (fun i => y.getD i false)).length = sc.length := by
    rw [List.length_map, argsortDesc_length]
  have hs : ((argsortDesc sc).map (fun i => sc.getD i 0)).length = sc.length := by
    rw [List.length_map, argsortDesc_length]
  have hguard :
      (fpsColNone ((argsortDesc sc).map (fun i => y.getD i false))
          (thresholdIdxs ((argsortDesc sc).map (fun i => sc.getD i 0)))).getLastD 0 =
        ((((argsortDesc sc).map (fun i => y.getD i false)).filter (fun l => !l)).length : ℚ) ∧
      (tpsColNone ((argsortDesc sc).map (fun i => y.getD i false))
          (thresholdIdxs ((argsortDesc sc).map (fun i => sc.getD i 0)))).getLastD 0 =
        ((((argsortDesc sc).map (fun i => y.getD i false)).filter (fun l => l)).length : ℚ) := by
    constructor
    · rw [fpsColNone_eq _ _ (by omega) (by omega),
        fpsCol_getLastD _ _ _ (by simp [hlab]) (by simp [hlab, hs]) (by omega),
        sum_wNeg_ones]
    · rw [tpsColNone_eq,
        tpsCol_getLastD _ _ _ (by simp [hlab]) (by simp [hlab, hs]) (by omega),
        sum_wPos_ones]
  unfold binary_clf_curve
  rw [if_pos ⟨h1, h2⟩]
  dsimp only
  rw [if_pos hguard]
  rw [fpsColNone_eq _ _ (by omega) (by omega), tpsColNone_eq]
  simp only [List.map_cons, List.map_nil]

/-- The engine's weighted branch, written as the per-column pipeline applied
to the list of (sorted) weight columns, handed to the shared finish stage. -/
theorem clf_some_eq (y : List Bool) (sc : List ℚ) (W : List (List ℚ))
    (h1 : sc.length = y.length) (h2 : 1 ≤ y.length)
    (h3 : W.length = y.length) (h4 : 1 ≤ (W.headD []).length)
    (h5 : ∀ r ∈ W, r.length = (W.headD []).length)
    (h6 : ∀ r ∈ W, ∀ x ∈ r, 0 < x) :
    binary_clf_curve y sc (some W) =
      finishEngine
        (((List.range (W.headD []).length).map (fun j =>
            (argsortDesc sc).map (fun i => (W.getD i []).getD j 0))).map (fun w => (0 : ℚ) ::
              fpsCol ((argsortDesc sc).map (fun i => y.getD i false)) w
                (thresholdIdxs ((argsortDesc sc).map (fun i => sc.getD i 0)))))
        (((List.range (W.headD []).length).map (fun j =>
            (argsortDesc sc).map (fun i => (W.getD i []).getD j 0))).map (fun w => (0 : ℚ) ::
              tpsCol ((argsortDesc sc).map (fun i => y.getD i false)) w
                (thresholdIdxs ((argsortDesc sc).map (fun i => sc.getD i 0)))))
        (clfThresholds ((argsortDesc sc).map (fun i => sc.getD i 0))
          (thresholdIdxs ((argsortDesc sc).map (fun i => sc.getD i 0))))
        Dtype.float := by
  have hlab : ((argsortDesc sc).map (fun i => y.getD i false)).length = sc.length := by
    rw [List.length_map, argsortDesc_length]
  have hs : ((argsortDesc sc).map (fun i => sc.getD i 0)).length = sc.length := by
    rw [List.length_map, argsortDesc_length]
  have hcollen : ∀ j, ((argsortDesc sc).map (fun i => (W.getD i []).getD j 0)).length
      = sc.length := by
    intro j
    rw [List.length_map, argsortDesc_length]
  have hguard : ∀ j ∈ List.range (W.headD []).length,
      (fpsCol ((argsortDesc sc).map (fun i => y.getD i false))
          ((argsortDesc sc).map (fun i => (W.getD i []).getD j 0))
          (thresholdIdxs ((argsortDesc sc).map (fun i => sc.getD i 0)))).getLastD 0 =
        (List.zipWith wNeg ((argsortDesc sc).map (fun i => y.getD i false))
          ((argsortDesc sc).map (fun i => (W.getD i []).getD j 0))).sum ∧
      (tpsCol ((argsortDesc sc).map (fun i => y.getD i false))
          ((argsortDesc sc).map (fun i => (W.getD i []).getD j 0))
          (thresholdIdxs ((argsortDesc sc).map (fun i => sc.getD i 0)))).getLastD 0 =
        (List.zipWith wPos ((argsortDesc sc).map (fun i => y.getD i false))
          ((argsortDesc sc).map (fun i => (W.getD i []).getD j 0))).sum := by
    intro j _
    constructor
    · exact fpsCol_getLastD _ _ _ (by rw [hlab, hcollen]) (by rw [hcollen, hs]) (by omega)
    · exact tpsCol_getLastD _ _ _ (by rw [hlab, hcollen]) (by rw [hcollen, hs]) (by omega)
  unfold binary_clf_curve
  rw [if_pos ⟨h1, h2⟩]
  dsimp only
  rw [if_pos ⟨h3, h4, h5, h6⟩, if_pos hguard]
  simp only [List.map_map, Function.comp_def]

/-- Success and per-column postconditions of the finish stage on raw count
matrices built from sorted weight columns. -/
theorem finish_master (s : List ℚ) (lab : List Bool) (wcols : List (List ℚ)) (d : Dtype)
    (hls : lab.length = s.length) (hn : 1 ≤ s.length)
    (hwlen : ∀ w ∈ wcols, w.length = s.length)
    (hwpos : ∀ w ∈ wcols, ∀ x ∈ w, 0 < x) :
    ∃ fps tps dfps dtps,
      finishEngine (wcols.map (fun w => (0 : ℚ) :: fpsCol lab w (thresholdIdxs s)))
          (wcols.map (fun w => (0 : ℚ) :: tpsCol lab w (thresholdIdxs s)))
          (clfThresholds s (thresholdIdxs s)) d
        = some (fps, tps, clfThresholds s (thresholdIdxs s), dfps, dtps) ∧
      dfps = dtps ∧ fps.length = wcols.length ∧ tps.length = wcols.length ∧
      (∀ k, k < wcols.length →
        GoodCol (fps.getD k []) (tps.getD k []) ∧
        (fps.getD k []).length = (clfThresholds s (thresholdIdxs s)).length ∧
        (tps.getD k []).length = (clfThresholds s (thresholdIdxs s)).length) := by
  have hF0len : (wcols.map (fun w => (0 : ℚ) :: fpsCol lab w (thresholdIdxs s))).length
      = wcols.length := List.length_map _ _
  have hT0len : (wcols.map (fun w => (0 : ℚ) :: tpsCol lab w (thresholdIdxs s))).length
      = wcols.length := List.length_map _ _
  have hraw : ∀ k, (hk : k < wcols.length) →
      RawCol ((wcols.map (fun w => (0 : ℚ) :: fpsCol lab w (thresholdIdxs s))).getD k [])
        ((wcols.map (fun w => (0 : ℚ) :: tpsCol lab w (thresholdIdxs s))).getD k []) := by
    intro k hk
    rw [getD_map_gen _ _ k hk [] [], getD_map_gen _ _ k hk [] []]
    have hmem : wcols.getD k [] ∈ wcols := by
      rw [List.getD_eq_getElem _ _ hk]
      exact List.getElem_mem _
    exact rawCol_holds lab (wcols.getD k []) s hls (hwlen _ hmem) hn (hwpos _ hmem)
  rw [finishEngine_eq _ _ _ _ (by rw [hF0len, hT0len]) (by
    intro k hk
    rw [hT0len] at hk
    exact hraw k hk)]
  refine ⟨_, _, _, _, rfl, rfl, ?_, ?_, ?_⟩
  · rw [List.length_zipWith, hF0len, hT0len, min_self]
  · rw [List.length_zipWith, hF0len, hT0len, min_self]
  · intro k hk
    have hka : k < (wcols.map (fun w => (0 : ℚ) :: fpsCol lab w (thresholdIdxs s))).length := by
      omega
    have hkb : k < (wcols.map (fun w => (0 : ℚ) :: tpsCol lab w (thresholdIdxs s))).length := by
      omega
    have hzf := getD_zipWith (fun f t => (nv_add_pseudo_points f t).1) _ _ k hka hkb
      ([] : List ℚ) [] []
    have hzt := getD_zipWith (fun f t => (nv_add_pseudo_points f t).2) _ _ k hka hkb
      ([] : List ℚ) [] []
    rw [hzf, hzt]
    obtain ⟨hgc, hcm⟩ := rawCol_finish _ _ (hraw k hk)
    rw [hcm] at hgc
    refine ⟨hgc, ?_, ?_⟩
    · have hr := hraw k hk
      have hlen12 := hr.1
      have hlen2 : ((wcols.map (fun w => (0 : ℚ) :: tpsCol lab w (thresholdIdxs s))).getD
          k []).length = (thresholdIdxs s).length + 1 := by
        rw [getD_map_gen _ _ k hk [] []]
        simp [tpsCol_length]
      have := (nv_add_pseudo_points_length _ _ hlen12).1
      rw [this, hlen12, hlen2, clfThresholds_length]
    · have hr := hraw k hk
      have hlen2 : ((wcols.map (fun w => (0 : ℚ) :: tpsCol lab w (thresholdIdxs s))).getD
          k []).length = (thresholdIdxs s).length + 1 := by
        rw [getD_map_gen _ _ k hk [] []]
        simp [tpsCol_length]
      have := (nv_add_pseudo_points_length _ _ hr.1).2
      rw [this, hlen2, clfThresholds_length]

/-- Master engine theorem: on every valid input the engine succeeds, its two
count matrices satisfy every per-column postcondition, the dtypes agree, and
the threshold sequence is the strictly decreasing `+inf`-led sequence of
distinct score values, shared by all columns. -/
theorem clf_master (y : List Bool) (sc : List ℚ) (sw : Option (List (List ℚ)))
    (h : clfValid y sc sw) :
    ∃ fps tps thr dfps dtps,
      binary_clf_curve y sc sw = some (fps, tps, thr, dfps, dtps) ∧
      dfps = dtps ∧ fps.length = tps.length ∧ 1 ≤ fps.length ∧
      (∀ k, k < fps.length → GoodCol (fps.getD k []) (tps.getD k []) ∧
        (fps.getD k []).length = thr.length ∧ (tps.getD k []).length = thr.length) ∧
      2 ≤ thr.length ∧ thr.headD 0 = ⊤ ∧
      List.Chain' (fun a b => b < a) thr ∧
      (∀ q : ℚ, (q : WithTop ℚ) ∈ thr.tail ↔ q ∈ sc) ∧
      (∃ fps0 tps0 d0, binary_clf_curve y sc sw = finishEngine fps0 tps0 thr d0 ∧
        (∀ c ∈ fps0, c.headD 1 = 0) ∧ (∀ c ∈ tps0, c.headD 1 = 0) ∧
        (∀ c ∈ fps0, c.length = thr.length) ∧ (∀ c ∈ tps0, c.length = thr.length)) := by
  obtain ⟨h1, h2, hsw⟩ := h
  have hlab : ((argsortDesc sc).map (fun i => y.getD i false)).length
      = ((argsortDesc sc).map (fun i => sc.getD i 0)).length := by
    simp
  have hslen : ((argsortDesc sc).map (fun i => sc.getD i 0)).length = sc.length := by
    rw [List.length_map, argsortDesc_length]
  have hn : 1 ≤ ((argsortDesc sc).map (fun i => sc.getD i 0)).length := by omega
  have hdesc : ∀ i j, i ≤ j → j < ((argsortDesc sc).map (fun i => sc.getD i 0)).length →
      ((argsortDesc sc).map (fun k => sc.getD k 0)).getD j 0 ≤
        ((argsortDesc sc).map (fun k => sc.getD k 0)).getD i 0 := by
    intro i j hij hj
    exact sortedScores_desc sc hij (by omega)
  have hperm : ((argsortDesc sc).map (fun i => sc.getD i 0)).Perm sc :=
    argsortDesc_map_perm sc sc rfl 0
  have hthr2 : 2 ≤ (clfThresholds ((argsortDesc sc).map (fun i => sc.getD i 0))
      (thresholdIdxs ((argsortDesc sc).map (fun i => sc.getD i 0)))).length := by
    rw [clfThresholds_length]
    have := List.length_pos.mpr (thresholdIdxs_ne_nil
      ((argsortDesc sc).map (fun i => sc.getD i 0)))
    omega
  cases sw with
  | none =>
    rw [clf_none_eq y sc h1 h2]
    obtain ⟨fps, tps, dfps, dtps, heq, hdd, hfl, htl, hcols⟩ :=
      finish_master ((argsortDesc sc).map (fun i => sc.getD i 0))
        ((argsortDesc sc).map (fun i => y.getD i false))
        [List.replicate ((argsortDesc sc).map (fun i => y.getD i false)).length (1 : ℚ)]
        Dtype.int hlab hn
        (by
          intro w hw
          rw [List.mem_singleton] at hw
          subst hw
          rw [List.length_replicate]
          exact hlab)
        (by
          intro w hw
          rw [List.mem_singleton] at hw
          subst hw
          intro x hx
          rw [List.eq_of_mem_replicate hx]
          norm_num)
    simp only [List.length_singleton] at hfl htl
    refine ⟨fps, tps, _, dfps, dtps, heq, hdd, by omega, by omega, ?_, hthr2,
      rfl, clfThresholds_chain _ hdesc hn,
      fun q => clfThresholds_tail_mem _ sc hperm hdesc hn q, ?_⟩
    · intro k hk
      refine hcols k ?_
      simp only [List.length_singleton]
      omega
    · refine ⟨_, _, _, rfl, ?_, ?_, ?_, ?_⟩ <;>
      · intro c hc
        rcases List.mem_map.mp hc with ⟨w, hw, rfl⟩
        simp [clfThresholds_length, fpsCol_length, tpsCol_length]
  | some W =>
    obtain ⟨h3, h4, h5, h6⟩ := hsw
    rw [clf_some_eq y sc W h1 h2 h3 h4 h5 h6]
    obtain ⟨fps, tps, dfps, dtps, heq, hdd, hfl, htl, hcols⟩ :=
      finish_master ((argsortDesc sc).map (fun i => sc.getD i 0))
        ((argsortDesc sc).map (fun i => y.getD i false))
        ((List.range (W.headD []).length).map (fun j =>
          (argsortDesc sc).map (fun i => (W.getD i []).getD j 0)))
        Dtype.float hlab hn
        (by
          intro w hw
          rcases List.mem_map.mp hw with ⟨j, _, rfl⟩
          rw [List.length_map, argsortDesc_length, hslen])
        (by
          intro w hw
          rcases List.mem_map.mp hw with ⟨j, hj, rfl⟩
          intro x hx
          rcases List.mem_map.mp hx with ⟨i, hi, rfl⟩
          have hilt : i < W.length := by
            rw [h3, ← h1]
            exact argsortDesc_mem_lt sc i hi
          have hrow : W.getD i [] ∈ W := by
            rw [List.getD_eq_getElem _ _ hilt]
            exact List.getElem_mem _
          have hjm : j < (W.getD i []).length := by
            rw [h5 _ hrow]
            exact List.mem_range.mp hj
          exact h6 _ hrow _ (getD_mem_rat _ j hjm 0))
    have hm : 1 ≤ (W.headD []).length := h4
    refine ⟨fps, tps, _, dfps, dtps, heq, hdd, by omega, ?_, ?_, hthr2,
      rfl, clfThresholds_chain _ hdesc hn,
      fun q => clfThresholds_tail_mem _ sc hperm hdesc hn q, ?_⟩
    · simp only [List.length_map, List.length_range] at hfl
      omega
    · intro k hk
      refine hcols k ?_
      simp only [List.length_map, List.length_range] at hfl ⊢
      omega
    · refine ⟨_, _, _, rfl, ?_, ?_, ?_, ?_⟩ <;>
      · intro c hc
        rcases List.mem_map.mp hc with ⟨w, hw, rfl⟩
        simp [clfThresholds_length, fpsCol_length, tpsCol_length]

/-! ## `F` arithmetic lemmas -/

theorem qdivF_den_pos (a b : ℚ) (hb : 0 < b) : qdivF a b = F.fin (a / b) := by
  unfold qdivF
  rw [if_pos (ne_of_gt hb)]

theorem F_le_fin_fin (a b : ℚ) : F.le (F.fin a) (F.fin b) = true ↔ a ≤ b := by
  simp [F.le]

theorem headD_map_gen {α β : Type} (f : α → β) (l : List α) (h : l ≠ []) (d : β) (d' : α) :
    (l.map f).headD d = f (l.headD d') := by
  cases l with
  | nil => exact absurd rfl h
  | cons x xs => rfl

/-! ## `auc_left` equals the specification's left Riemann sum -/

theorem zipWith_prod_eq_range (xc yc : List F) (hl : yc.length = xc.length) :
    List.zipWith F.mul yc.dropLast (diffF xc) =
      (List.range (xc.length - 1)).map (fun i =>
        F.mul (yc.getD i (F.fin 0))
          (F.sub (xc.getD (i + 1) (F.fin 0)) (xc.getD i (F.fin 0)))) := by
  apply List.ext_getElem
  · simp [diffF, List.length_dropLast, List.length_tail]
    omega
  · intro i h1 h2
    have hlen : (List.zipWith F.mul yc.dropLast (diffF xc)).length = xc.length - 1 := by
      simp [diffF, List.length_dropLast, List.length_tail]
      omega
    rw [hlen] at h1
    have hiy : i < yc.dropLast.length := by
      rw [List.length_dropLast]
      omega
    have hix : i < (diffF xc).length := by
      simp [diffF, List.length_tail]
      omega
    have hixt : i < xc.tail.length := by
      rw [List.length_tail]
      omega
    rw [List.getElem_zipWith, List.getElem_map, List.getElem_range]
    unfold diffF
    rw [List.getElem_zipWith (h := hix)]
    congr 1
    · rw [List.getElem_dropLast, List.getD_eq_getElem yc (F.fin 0) (by omega)]
    · congr 1
      · rw [List.getElem_tail, List.getD_eq_getElem xc (F.fin 0) (by omega)]
      · rw [List.getD_eq_getElem xc (F.fin 0) (by omega)]

theorem nansum_eq_riemann (xc yc : List F) (hl : yc.length = xc.length) :
    nansum (List.zipWith F.mul yc.dropLast (diffF xc)) = riemannSpec xc yc := by
  rw [zipWith_prod_eq_range xc yc hl]
  unfold nansum riemannSpec
  rw [List.map_map, List.foldl_map]
  rfl

theorem mem_getD_elim {α : Type} (L : List α) (d : α) {c : α} (h : c ∈ L) :
    ∃ k, k < L.length ∧ c = L.getD k d := by
  rw [List.mem_iff_getElem] at h
  obtain ⟨k, hk, hkc⟩ := h
  exact ⟨k, hk, by rw [List.getD_eq_getElem _ _ hk, hkc]⟩

/-! ## Claim theorems -/

/-- C1: for every input satisfying the engine's preconditions, the engine
succeeds and the returned `fps` and `tps` matrices are non-decreasing along
the threshold axis in every replicate column, their final rows are strictly
positive in every column, and the two matrices carry the same dtype. -/
theorem claim_C1 (y : List Bool) (sc : List ℚ) (sw : Option (List (List ℚ)))
    (h : clfValid y sc sw) :
    ∃ fps tps thr dfps dtps,
      binary_clf_curve y sc sw = some (fps, tps, thr, dfps, dtps) ∧
      (∀ c ∈ fps, List.Chain' (· ≤ ·) c) ∧ (∀ c ∈ tps, List.Chain' (· ≤ ·) c) ∧
      (∀ c ∈ fps, 0 < c.getLastD 0) ∧ (∀ c ∈ tps, 0 < c.getLastD 0) ∧
      dfps = dtps := by
  obtain ⟨fps, tps, thr, dfps, dtps, heq, hdd, hft, hf1, hcols, _⟩ := clf_master y sc sw h
  refine ⟨fps, tps, thr, dfps, dtps, heq, ?_, ?_, ?_, ?_, hdd⟩
  · intro c hc
    obtain ⟨k, hk, rfl⟩ := mem_getD_elim fps [] hc
    exact ((hcols k hk).1).2.2.2.2.1
  · intro c hc
    obtain ⟨k, hk, rfl⟩ := mem_getD_elim tps [] hc
    exact ((hcols k (by omega)).1).2.2.2.2.2.1
  · intro c hc
    obtain ⟨k, hk, rfl⟩ := mem_getD_elim fps [] hc
    exact ((hcols k hk).1).2.2.2.2.2.2.2.2.1
  · intro c hc
    obtain ⟨k, hk, rfl⟩ := mem_getD_elim tps [] hc
    exact ((hcols k (by omega)).1).2.2.2.2.2.2.2.2.2.1

/-- C9: `auc_left` fails exactly when an input contains NaN, and otherwise
returns, per column, the specification's left Riemann sum
`Σ y[i]·(x[i+1] − x[i])` with NaN products counted as zero. -/
theorem claim_C9 (x y : List (List F))
    (hshape : List.Forall₂ (fun xc yc => yc.length = xc.length) x y) :
    (auc_left x y = none ↔
      (∃ c ∈ x, ∃ v ∈ c, F.isNan v = true) ∨ (∃ c ∈ y, ∃ v ∈ c, F.isNan v = true)) ∧
    (auc_left x y ≠ none →
      auc_left x y = some (List.zipWith riemannSpec x y)) := by
  constructor
  · constructor
    · intro hnone
      by_cases hb : ((x.any fun c => c.any F.isNan) || (y.any fun c => c.any F.isNan)) = true
      · simpa [List.any_eq_true] using hb
      · unfold auc_left at hnone
        rw [if_neg hb] at hnone
        cases hnone
    · intro hex
      have hb : ((x.any fun c => c.any F.isNan) || (y.any fun c => c.any F.isNan)) = true := by
        simpa [List.any_eq_true] using hex
      unfold auc_left
      rw [if_pos hb]
  · intro hne
    by_cases hb : ((x.any fun c => c.any F.isNan) || (y.any fun c => c.any F.isNan)) = true
    · unfold auc_left at hne
      rw [if_pos hb] at hne
      exact absurd rfl hne
    · unfold auc_left
      rw [if_neg hb]
      refine congrArg some ?_
      clear hne hb
      induction hshape with
      | nil => rfl
      | cons hxy htail ih =>
        simp only [List.zipWith_cons_cons]
        rw [ih, nansum_eq_riemann _ _ hxy]

/-- Witness for C9 at a concrete boundary input containing a `0 · ∞`
product. -/
theorem claim_C9_witness :
    (auc_left [[F.fin 0, F.pinf]] [[F.fin 0, F.fin 1]] = none ↔
      (∃ c ∈ [[F.fin 0, F.pinf]], ∃ v ∈ c, F.isNan v = true) ∨
      (∃ c ∈ [[F.fin 0, F.fin 1]], ∃ v ∈ c, F.isNan v = true)) ∧
    (auc_left [[F.fin 0, F.pinf]] [[F.fin 0, F.fin 1]] ≠ none →
      auc_left [[F.fin 0, F.pinf]] [[F.fin 0, F.fin 1]] =
        some (List.zipWith riemannSpec [[F.fin 0, F.pinf]] [[F.fin 0, F.fin 1]])) :=
  claim_C9 _ _ (List.Forall₂.cons rfl List.Forall₂.nil)

/-! ## Rate-column facts (for `roc_curve` and `recall_precision_curve`) -/

theorem rateCol_bounds (c : List ℚ) (hch : List.Chain' (· ≤ ·) c)
    (hnn : ∀ v ∈ c, 0 ≤ v) (hpos : 0 < c.getLastD 0) :
    ∀ v ∈ rateCol c, F.le (F.fin 0) v = true ∧ F.le v (F.fin 1) = true := by
  intro v hv
  rcases List.mem_map.mp hv with ⟨x, hx, rfl⟩
  rw [qdivF_den_pos _ _ hpos]
  constructor
  · rw [F_le_fin_fin]
    exact div_nonneg (hnn x hx) (le_of_lt hpos)
  · rw [F_le_fin_fin]
    exact div_le_one_of_le (chain'_le_getLastD c hch x hx) (le_of_lt hpos)

theorem rateCol_headD (c : List ℚ) (hne : c ≠ []) (hh : c.headD 0 = 0)
    (hpos : 0 < c.getLastD 0) : (rateCol c).headD F.nan = F.fin 0 := by
  unfold rateCol
  rw [headD_map_gen _ c hne F.nan 0, hh, qdivF_den_pos _ _ hpos, zero_div]

theorem rateCol_getLastD (c : List ℚ) (hne : c ≠ []) (hpos : 0 < c.getLastD 0) :
    (rateCol c).getLastD F.nan = F.fin 1 := by
  unfold rateCol
  rw [getLastD_map_gen _ c hne F.nan 0, qdivF_den_pos _ _ hpos,
    div_self (ne_of_gt hpos)]

/-- C4: for every valid input, `roc_curve` succeeds; its rates are the
engine's counts divided column-wise by their final row, all entries lie in
`[0, 1]`, the first row is exactly `(0, 0)` and the last row exactly
`(1, 1)` in every replicate column. -/
theorem claim_C4 (y : List Bool) (sc : List ℚ) (sw : Option (List (List ℚ)))
    (h : clfValid y sc sw) :
    ∃ fps tps thr dfps dtps,
      binary_clf_curve y sc sw = some (fps, tps, thr, dfps, dtps) ∧
      roc_curve y sc sw = some (fps.map rateCol, tps.map rateCol, thr) ∧
      (∀ c ∈ fps.map rateCol, ∀ v ∈ c,
        F.le (F.fin 0) v = true ∧ F.le v (F.fin 1) = true) ∧
      (∀ c ∈ tps.map rateCol, ∀ v ∈ c,
        F.le (F.fin 0) v = true ∧ F.le v (F.fin 1) = true) ∧
      (∀ c ∈ fps.map rateCol, c.headD F.nan = F.fin 0) ∧
      (∀ c ∈ tps.map rateCol, c.headD F.nan = F.fin 0) ∧
      (∀ c ∈ fps.map rateCol, c.getLastD F.nan = F.fin 1) ∧
      (∀ c ∈ tps.map rateCol, c.getLastD F.nan = F.fin 1) := by
  obtain ⟨fps, tps, thr, dfps, dtps, heq, hdd, hft, hf1, hcols, _⟩ := clf_master y sc sw h
  have hgf : ∀ c ∈ fps, List.Chain' (· ≤ ·) c ∧ (∀ v ∈ c, 0 ≤ v) ∧
      0 < c.getLastD 0 ∧ c ≠ [] ∧ c.headD 0 = 0 := by
    intro c hc
    obtain ⟨k, hk, rfl⟩ := mem_getD_elim fps [] hc
    obtain ⟨hg, _, _⟩ := hcols k hk
    refine ⟨hg.2.2.2.2.1, hg.2.2.2.2.2.2.1, hg.2.2.2.2.2.2.2.2.1, ?_, hg.2.2.1⟩
    intro hnil
    have h2 := hg.2.1
    rw [← hg.1, hnil] at h2
    simp at h2
  have hgt : ∀ c ∈ tps, List.Chain' (· ≤ ·) c ∧ (∀ v ∈ c, 0 ≤ v) ∧
      0 < c.getLastD 0 ∧ c ≠ [] ∧ c.headD 0 = 0 := by
    intro c hc
    obtain ⟨k, hk, rfl⟩ := mem_getD_elim tps [] hc
    obtain ⟨hg, _, _⟩ := hcols k (by omega)
    refine ⟨hg.2.2.2.2.2.1, hg.2.2.2.2.2.2.2.1, hg.2.2.2.2.2.2.2.2.2.1, ?_, hg.2.2.2.1⟩
    intro hnil
    have h2 := hg.2.1
    rw [hnil] at h2
    simp at h2
  refine ⟨fps, tps, thr, dfps, dtps, heq, ?_, ?_, ?_, ?_, ?_, ?_, ?_⟩
  · unfold roc_curve
    rw [heq]
  · intro c hc
    rcases List.mem_map.mp hc with ⟨c0, hc0, rfl⟩
    obtain ⟨h1, h2, h3, _, _⟩ := hgf c0 hc0
    exact rateCol_bounds c0 h1 h2 h3
  · intro c hc
    rcases List.mem_map.mp hc with ⟨c0, hc0, rfl⟩
    obtain ⟨h1, h2, h3, _, _⟩ := hgt c0 hc0
    exact rateCol_bounds c0 h1 h2 h3
  · intro c hc
    rcases List.mem_map.mp hc with ⟨c0, hc0, rfl⟩
    obtain ⟨_, _, h3, h4, h5⟩ := hgf c0 hc0
    exact rateCol_headD c0 h4 h5 h3
  · intro c hc
    rcases List.mem_map.mp hc with ⟨c0, hc0, rfl⟩
    obtain ⟨_, _, h3, h4, h5⟩ := hgt c0 hc0
    exact rateCol_headD c0 h4 h5 h3
  · intro c hc
    rcases List.mem_map.mp hc with ⟨c0, hc0, rfl⟩
    obtain ⟨_, _, h3, h4, _⟩ := hgf c0 hc0
    exact rateCol_getLastD c0 h4 h3
  · intro c hc
    rcases List.mem_map.mp hc with ⟨c0, hc0, rfl⟩
    obtain ⟨_, _, h3, h4, _⟩ := hgt c0 hc0
    exact rateCol_getLastD c0 h4 h3

/-! ## Precision-column facts -/

theorem precCol_length (fc tc : List ℚ) (h : fc.length = tc.length) :
    (precCol fc tc).length = tc.length := by
  unfold precCol
  rw [List.length_zipWith, h, min_self]

theorem precCol_getElem (fc tc : List ℚ) (i : ℕ) (hi : i < (precCol fc tc).length) :
    (precCol fc tc)[i] =
      qdivF (tc.getD i 0) (tc.getD i 0 + fc.getD i 0) := by
  unfold precCol at hi ⊢
  have hif : i < fc.length := by
    rw [List.length_zipWith] at hi
    omega
  have hit : i < tc.length := by
    rw [List.length_zipWith] at hi
    omega
  rw [List.getElem_zipWith, List.getD_eq_getElem fc 0 hif, List.getD_eq_getElem tc 0 hit]

theorem precCol_override_bounds (fc tc : List ℚ) (hg : GoodCol fc tc) :
    ∀ p ∈ overrideFirst (precCol fc tc),
      F.le (F.fin 0) p = true ∧ F.le p (F.fin 1) = true := by
  obtain ⟨hlen, h2, hfh, hth, hfc, htc, hfn, htn, hfl, htl, hsum⟩ := hg
  have hclen : (precCol fc tc).length = tc.length := precCol_length fc tc hlen
  have hval : ∀ i, 1 ≤ i → (hi : i < (precCol fc tc).length) →
      F.le (F.fin 0) (precCol fc tc)[i] = true ∧
      F.le (precCol fc tc)[i] (F.fin 1) = true := by
    intro i h1 hi
    have hit : i < tc.length := by omega
    have hif : i < fc.length := by omega
    have hden : 0 < tc.getD i 0 + fc.getD i 0 := hsum i h1 hit
    have htnn : 0 ≤ tc.getD i 0 := htn _ (getD_mem_rat tc i hit 0)
    have hfnn : 0 ≤ fc.getD i 0 := hfn _ (getD_mem_rat fc i hif 0)
    rw [precCol_getElem fc tc i hi, qdivF_den_pos _ _ hden]
    constructor
    · rw [F_le_fin_fin]
      exact div_nonneg htnn (le_of_lt hden)
    · rw [F_le_fin_fin]
      exact div_le_one_of_le (by linarith) (le_of_lt hden)
  intro p hp
  rw [List.mem_iff_getElem] at hp
  obtain ⟨i, hi, rfl⟩ := hp
  unfold overrideFirst at hi ⊢
  have hi' : i < (precCol fc tc).length := by
    rw [List.length_set] at hi
    exact hi
  rw [List.getElem_set]
  by_cases h0 : 0 = i
  · rw [if_pos h0]
    have h1lt : 1 < (precCol fc tc).length := by omega
    rw [List.getD_eq_getElem _ _ h1lt]
    exact hval 1 le_rfl h1lt
  · rw [if_neg h0]
    exact hval i (by omega) hi'

/-- C5: for every valid input, `recall_precision_curve` succeeds; its
precision is `tps / (tps + fps)` with the first row overwritten by the
second, the division's denominator vanishes only at the leading
infinity-threshold row, and after the override every precision entry lies
in `[0, 1]`. -/
theorem claim_C5 (y : List Bool) (sc : List ℚ) (sw : Option (List (List ℚ)))
    (h : clfValid y sc sw) :
    ∃ fps tps thr dfps dtps,
      binary_clf_curve y sc sw = some (fps, tps, thr, dfps, dtps) ∧
      recall_precision_curve y sc sw =
        some (tps.map rateCol, (List.zipWith precCol fps tps).map overrideFirst, thr) ∧
      (∀ k, k < fps.length →
        (tps.getD k []).getD 0 0 + (fps.getD k []).getD 0 0 = 0) ∧
      (∀ k, k < fps.length → ∀ i, 1 ≤ i → i < (tps.getD k []).length →
        0 < (tps.getD k []).getD i 0 + (fps.getD k []).getD i 0) ∧
      (∀ c ∈ (List.zipWith precCol fps tps).map overrideFirst, ∀ p ∈ c,
        F.le (F.fin 0) p = true ∧ F.le p (F.fin 1) = true) := by
  obtain ⟨fps, tps, thr, dfps, dtps, heq, hdd, hft, hf1, hcols, hthr2, _⟩ :=
    clf_master y sc sw h
  have hboundsAll : ∀ c ∈ (List.zipWith precCol fps tps).map overrideFirst, ∀ p ∈ c,
      F.le (F.fin 0) p = true ∧ F.le p (F.fin 1) = true := by
    intro c hc
    rw [List.map_zipWith] at hc
    obtain ⟨k, ha, hb, rfl⟩ := mem_zipWith_elim _ hc
    have hg := (hcols k ha).1
    rw [List.getD_eq_getElem fps [] ha, List.getD_eq_getElem tps [] (by omega)] at hg
    exact precCol_override_bounds _ _ hg
  have hsucc : recall_precision_curve y sc sw =
      some (tps.map rateCol, (List.zipWith precCol fps tps).map overrideFirst, thr) := by
    unfold recall_precision_curve
    rw [heq]
    dsimp only
    have hg1 : ∀ c ∈ List.zipWith precCol fps tps, 2 ≤ c.length := by
      intro c hc
      obtain ⟨k, ha, hb, rfl⟩ := mem_zipWith_elim _ hc
      obtain ⟨hg, hlf, hlt⟩ := hcols k ha
      rw [List.getD_eq_getElem fps [] ha, List.getD_eq_getElem tps [] (by omega)] at hg
      rw [List.getD_eq_getElem tps [] (by omega)] at hlt
      rw [precCol_length _ _ hg.1, hlt]
      exact hthr2
    rw [if_pos hg1]
    have hg2 : ∀ c ∈ (List.zipWith precCol fps tps).map overrideFirst, ∀ p ∈ c,
        (F.le (F.fin 0) p && F.le p (F.fin 1)) = true := by
      intro c hc p hp
      rw [Bool.and_eq_true]
      exact hboundsAll c hc p hp
    rw [if_pos hg2]
  refine ⟨fps, tps, thr, dfps, dtps, heq, hsucc, ?_, ?_, hboundsAll⟩
  · intro k hk
    obtain ⟨hg, _, _⟩ := hcols k hk
    rw [← headD_eq_getD, ← headD_eq_getD, hg.2.2.1, hg.2.2.2.1]
    norm_num
  · intro k hk
    exact (hcols k hk).1.2.2.2.2.2.2.2.2.2.2

/-! ## Gain-column facts (for `prg_curve`) -/

theorem F_sub_fin (a b : ℚ) : F.sub (F.fin a) (F.fin b) = F.fin (a - b) := by
  simp [F.sub, F.add, F.neg, sub_eq_add_neg]

theorem qdivF_pos_zero (a : ℚ) (ha : 0 < a) : qdivF a 0 = F.pinf := by
  unfold qdivF
  simp [ha]

theorem fmax0_fin (x : ℚ) : F.fmax (F.fin 0) (F.fin x) = F.fin (max 0 x) := by
  unfold F.fmax
  rcases le_or_lt 0 x with hx | hx
  · simp [F.isNan, F.le, hx, max_eq_right hx]
  · simp [F.isNan, F.le, not_le.mpr hx, max_eq_left (le_of_lt hx)]

theorem fmax0_of_lt (v : F) (h : F.lt v (F.fin 0) = true) :
    F.fmax (F.fin 0) v = F.fin 0 := by
  cases v with
  | nan => simp [F.lt] at h
  | pinf => simp [F.lt] at h
  | ninf => rfl
  | fin a =>
    simp only [F.lt, decide_eq_true_eq] at h
    rw [fmax0_fin, max_eq_left (le_of_lt h)]

theorem le_sub_lt_zero_false (a b : F) (h : F.le a b = true) :
    F.lt (F.sub b a) (F.fin 0) = false := by
  cases a <;> cases b <;>
    simp_all [F.le, F.sub, F.add, F.neg, F.lt] <;> linarith

theorem diffF_cons_cons (x y : F) (ys : List F) :
    diffF (x :: y :: ys) = F.sub y x :: diffF (y :: ys) := rfl

theorem diffF_nonneg_of_chain (c : List F)
    (h : List.Chain' (fun a b => F.le a b = true) c) :
    ∀ dl ∈ diffF c, F.lt dl (F.fin 0) = false := by
  induction c with
  | nil => intro dl hdl; simp [diffF] at hdl
  | cons x xs ih =>
    intro dl hdl
    cases xs with
    | nil => simp [diffF] at hdl
    | cons y ys =>
      rw [diffF_cons_cons, List.mem_cons] at hdl
      have hch := List.chain'_cons.mp h
      rcases hdl with rfl | hdl'
      · exact le_sub_lt_zero_false x y hch.1
      · exact ih hch.2 dl hdl'

theorem recGainCol_length (fc tc : List ℚ) : (recGainCol fc tc).length = tc.length := by
  simp [recGainCol]

theorem precGainCol_length (fc tc : List ℚ) (h : fc.length = tc.length) :
    (precGainCol fc tc).length = tc.length := by
  unfold precGainCol
  rw [List.length_zipWith, h, min_self]

theorem recGainCol_getElem (fc tc : List ℚ) (i : ℕ) (hi : i < (recGainCol fc tc).length) :
    (recGainCol fc tc)[i] = F.sub (F.fin 1)
      (qdivF (tc.getLastD 0 * (tc.getLastD 0 - tc.getD i 0))
        (fc.getLastD 0 * tc.getD i 0)) := by
  unfold recGainCol at hi ⊢
  have hit : i < tc.length := by simpa using hi
  rw [List.getElem_map, List.getD_eq_getElem tc 0 hit]

theorem precGainCol_getElem (fc tc : List ℚ) (i : ℕ)
    (hi : i < (precGainCol fc tc).length) :
    (precGainCol fc tc)[i] = F.sub (F.fin 1)
      (qdivF (tc.getLastD 0 * fc.getD i 0) (fc.getLastD 0 * tc.getD i 0)) := by
  unfold precGainCol at hi ⊢
  have hif : i < fc.length := by
    rw [List.length_zipWith] at hi
    omega
  have hit : i < tc.length := by
    rw [List.length_zipWith] at hi
    omega
  rw [List.getElem_zipWith, List.getD_eq_getElem fc 0 hif, List.getD_eq_getElem tc 0 hit]

/-- The recall-gain transform at a zero count is `-inf`. -/
theorem recGain_val_zero (np nn : ℚ) (hnp : 0 < np) :
    F.sub (F.fin 1) (qdivF (np * (np - 0)) (nn * 0)) = F.ninf := by
  rw [mul_zero, sub_zero, qdivF_pos_zero _ (by nlinarith)]
  rfl

/-- The recall-gain transform at a positive count is finite. -/
theorem recGain_val_pos (np nn t : ℚ) (hnn : 0 < nn) (ht : 0 < t) :
    F.sub (F.fin 1) (qdivF (np * (np - t)) (nn * t)) =
      F.fin (1 - np * (np - t) / (nn * t)) := by
  rw [qdivF_den_pos _ _ (by positivity), F_sub_fin]

/-- Monotonicity of the recall-gain transform in the true-positive count. -/
theorem recGain_pair_le (np nn t t' : ℚ) (hnp : 0 < np) (hnn : 0 < nn)
    (ht0 : 0 ≤ t) (htt : t ≤ t') (htnp : t' ≤ np) :
    F.le (F.sub (F.fin 1) (qdivF (np * (np - t)) (nn * t)))
      (F.sub (F.fin 1) (qdivF (np * (np - t')) (nn * t'))) = true := by
  rcases eq_or_lt_of_le ht0 with rfl | htpos
  · rw [recGain_val_zero np nn hnp]
    rcases eq_or_lt_of_le htt with rfl | ht'pos
    · rw [recGain_val_zero np nn hnp]
      rfl
    · rw [recGain_val_pos np nn t' hnn ht'pos]
      rfl
  · have ht'pos : 0 < t' := lt_of_lt_of_le htpos htt
    rw [recGain_val_pos np nn t hnn htpos, recGain_val_pos np nn t' hnn ht'pos,
      F_le_fin_fin]
    have hdiv : np * (np - t') / (nn * t') ≤ np * (np - t) / (nn * t) := by
      have h1 : np * (np - t') ≤ np * (np - t) := by nlinarith
      have h2 : 0 < nn * t := by positivity
      have h3 : nn * t ≤ nn * t' := by nlinarith
      have h4 : 0 ≤ np * (np - t') := by nlinarith
      calc np * (np - t') / (nn * t') ≤ np * (np - t') / (nn * t) :=
            div_le_div_of_nonneg_left h4 h2 h3
        _ ≤ np * (np - t) / (nn * t) :=
            div_le_div_of_le_of_nonneg h1 (le_of_lt h2)
    linarith

/-- The pre-clipping recall gain is non-decreasing along each column. -/
theorem recGainCol_chain (fc tc : List ℚ) (hg : GoodCol fc tc) :
    List.Chain' (fun a b => F.le a b = true) (recGainCol fc tc) := by
  obtain ⟨hlen, h2, hfh, hth, hfc, htc, hfn, htn, hfl, htl, hsum⟩ := hg
  have htne : tc ≠ [] := by
    intro hnil; rw [hnil] at h2; simp at h2
  unfold recGainCol
  rw [List.chain'_map]
  have hp : List.Pairwise (· ≤ ·) tc := List.chain'_iff_pairwise.mp htc
  refine List.Pairwise.chain' ?_
  refine hp.imp_of_mem ?_
  intro a b ha hb hab
  exact recGain_pair_le (tc.getLastD 0) (fc.getLastD 0) a b htl hfl
    (htn a ha) hab (chain'_le_getLastD tc htc b hb)

/-- After clipping, every recall-gain entry is at most 1 and is not NaN. -/
theorem clip0_recGainCol_le_one (fc tc : List ℚ) (hg : GoodCol fc tc) :
    ∀ v ∈ clip0 (recGainCol fc tc), F.le v (F.fin 1) = true := by
  obtain ⟨hlen, h2, hfh, hth, hfc, htc, hfn, htn, hfl, htl, hsum⟩ := hg
  intro v hv
  rcases List.mem_map.mp hv with ⟨w, hw, rfl⟩
  rcases List.mem_map.mp hw with ⟨t, ht, rfl⟩
  have ht0 : 0 ≤ t := htn t ht
  rcases eq_or_lt_of_le ht0 with rfl | htpos
  · rw [recGain_val_zero _ _ htl]
    rfl
  · rw [recGain_val_pos _ _ t hfl htpos, fmax0_fin, F_le_fin_fin]
    have htnp : t ≤ tc.getLastD 0 := chain'_le_getLastD tc htc t ht
    have hrat : 0 ≤ tc.getLastD 0 * (tc.getLastD 0 - t) / (fc.getLastD 0 * t) := by
      apply div_nonneg
      · nlinarith
      · positivity
    rw [max_le_iff]
    constructor <;> linarith

/-- Wherever the returned recall gain is not zero, the returned precision
gain is at most 1. -/
theorem prg_final_guard (fc tc : List ℚ) (hg : GoodCol fc tc) (i : ℕ)
    (hi : i < (clip0 (recGainCol fc tc)).length) :
    (F.beq ((clip0 (recGainCol fc tc)).getD i F.nan) (F.fin 0) ||
      F.le ((overrideFirst (precGainCol fc tc)).getD i F.nan) (F.fin 1)) = true := by
  obtain ⟨hlen, h2, hfh, hth, hfc, htc, hfn, htn, hfl, htl, hsum⟩ := hg
  have hclen : (clip0 (recGainCol fc tc)).length = tc.length := by
    simp [clip0, recGainCol_length]
  have hit : i < tc.length := by omega
  have hrlen : i < (recGainCol fc tc).length := by rw [recGainCol_length]; omega
  have hrv : (clip0 (recGainCol fc tc)).getD i F.nan =
      F.fmax (F.fin 0) (recGainCol fc tc)[i] := by
    unfold clip0
    rw [List.getD_eq_getElem _ _ (by rw [List.length_map]; omega :
      i < ((recGainCol fc tc).map (fun v => F.fmax (F.fin 0) v)).length),
      List.getElem_map]
  rcases eq_or_lt_of_le (htn _ (getD_mem_rat tc i hit 0)) with hz | htpos
  · -- the count is zero at this row, so the clipped recall gain is exactly 0
    rw [hrv, recGainCol_getElem fc tc i hrlen, ← hz, recGain_val_zero _ _ htl]
    rfl
  · -- positive count: the precision gain here is finite and at most 1
    have hine : i ≠ 0 := by
      intro h0
      rw [h0, ← headD_eq_getD, hth] at htpos
      exact lt_irrefl 0 htpos
    have hplen0 : (precGainCol fc tc).length = tc.length := precGainCol_length fc tc hlen
    have hpi : i < (precGainCol fc tc).length := by omega
    have hpo : (overrideFirst (precGainCol fc tc)).getD i F.nan = (precGainCol fc tc)[i] := by
      unfold overrideFirst
      rw [List.getD_eq_getElem _ _ (by rw [List.length_set]; omega), List.getElem_set,
        if_neg (fun h => hine h.symm)]
    rw [hpo, precGainCol_getElem fc tc i hpi,
      qdivF_den_pos _ _ (by positivity : 0 < fc.getLastD 0 * tc.getD i 0), F_sub_fin]
    have hrat : 0 ≤ tc.getLastD 0 * fc.getD i 0 / (fc.getLastD 0 * tc.getD i 0) := by
      apply div_nonneg
      · have := hfn _ (getD_mem_rat fc i (by omega) 0)
        nlinarith
      · positivity
    have hle : F.le (F.fin (1 - tc.getLastD 0 * fc.getD i 0 /
        (fc.getLastD 0 * tc.getD i 0))) (F.fin 1) = true := by
      rw [F_le_fin_fin]
      linarith
    rw [hle, Bool.or_true]

theorem beq_fin_zero_false (r : F) (h : r ≠ F.fin 0) : F.beq r (F.fin 0) = false := by
  cases r with
  | nan => rfl
  | pinf => rfl
  | ninf => rfl
  | fin a =>
    simp only [F.beq, decide_eq_false_iff_not]
    intro ha
    exact h (by rw [ha])

/-- C6: for every valid input, `prg_curve` succeeds; its recall gain is
non-decreasing along the threshold axis before clipping, negative values are
saturated to exactly 0, every returned recall-gain entry is at most 1, and
wherever the returned recall gain is nonzero the returned precision gain is
at most 1. -/
theorem claim_C6 (y : List Bool) (sc : List ℚ) (sw : Option (List (List ℚ)))
    (h : clfValid y sc sw) :
    ∃ fps tps thr dfps dtps,
      binary_clf_curve y sc sw = some (fps, tps, thr, dfps, dtps) ∧
      prg_curve y sc sw = some ((List.zipWith recGainCol fps tps).map clip0,
        (List.zipWith precGainCol fps tps).map overrideFirst, thr) ∧
      (∀ c ∈ List.zipWith recGainCol fps tps,
        List.Chain' (fun a b => F.le a b = true) c) ∧
      (∀ c ∈ List.zipWith recGainCol fps tps, ∀ i, i < c.length →
        F.lt (c.getD i F.nan) (F.fin 0) = true → (clip0 c).getD i F.nan = F.fin 0) ∧
      (∀ c ∈ (List.zipWith recGainCol fps tps).map clip0, ∀ v ∈ c,
        F.le v (F.fin 1) = true) ∧
      (∀ k, k < fps.length → ∀ i,
        i < ((List.zipWith recGainCol fps tps).map clip0 |>.getD k []).length →
        ((List.zipWith recGainCol fps tps).map clip0 |>.getD k []).getD i F.nan ≠ F.fin 0 →
        F.le (((List.zipWith precGainCol fps tps).map overrideFirst |>.getD k []).getD
          i F.nan) (F.fin 1) = true) := by
  obtain ⟨fps, tps, thr, dfps, dtps, heq, hdd, hft, hf1, hcols, hthr2, _⟩ :=
    clf_master y sc sw h
  have hgood : ∀ k, (hk : k < fps.length) → GoodCol fps[k] tps[k] := by
    intro k hk
    have := (hcols k hk).1
    rwa [List.getD_eq_getElem fps [] hk, List.getD_eq_getElem tps [] (by omega)] at this
  have hchain : ∀ c ∈ List.zipWith recGainCol fps tps,
      List.Chain' (fun a b => F.le a b = true) c := by
    intro c hc
    obtain ⟨k, ha, hb, rfl⟩ := mem_zipWith_elim _ hc
    exact recGainCol_chain _ _ (hgood k ha)
  have hle1 : ∀ c ∈ (List.zipWith recGainCol fps tps).map clip0, ∀ v ∈ c,
      F.le v (F.fin 1) = true := by
    intro c hc
    rcases List.mem_map.mp hc with ⟨c0, hc0, rfl⟩
    obtain ⟨k, ha, hb, rfl⟩ := mem_zipWith_elim _ hc0
    exact clip0_recGainCol_le_one _ _ (hgood k ha)
  have hguardE : ∀ p ∈ List.zip ((List.zipWith recGainCol fps tps).map clip0)
      ((List.zipWith precGainCol fps tps).map overrideFirst),
      ∀ rp ∈ List.zip p.1 p.2,
        (F.beq rp.1 (F.fin 0) || F.le rp.2 (F.fin 1)) = true := by
    intro p hp
    obtain ⟨k, hk, hpk⟩ := List.mem_iff_getElem.mp hp
    have hklen : k < fps.length := by
      simp only [List.length_zip, List.length_map, List.length_zipWith] at hk
      omega
    simp only [List.getElem_zip, List.getElem_map, List.getElem_zipWith] at hpk
    subst hpk
    dsimp only
    intro rp hrp
    obtain ⟨i, hi, hrpi⟩ := List.mem_iff_getElem.mp hrp
    rw [List.getElem_zip] at hrpi
    subst hrpi
    dsimp only
    rw [List.length_zip] at hi
    have hktps : k < tps.length := by omega
    have hilA : i < (clip0 (recGainCol fps[k] tps[k])).length := by omega
    have hilB : i < (overrideFirst (precGainCol fps[k] tps[k])).length := by omega
    have hgl := prg_final_guard _ _ (hgood k hklen) i hilA
    rw [← List.getD_eq_getElem _ F.nan hilA, ← List.getD_eq_getElem _ F.nan hilB]
    exact hgl
  have hsucc : prg_curve y sc sw =
      some ((List.zipWith recGainCol fps tps).map clip0,
        (List.zipWith precGainCol fps tps).map overrideFirst, thr) := by
    unfold prg_curve
    rw [heq]
    dsimp only
    have hg1 : ∀ c ∈ List.zipWith precGainCol fps tps, 2 ≤ c.length := by
      intro c hc
      obtain ⟨k, ha, hb, rfl⟩ := mem_zipWith_elim _ hc
      have hg := hgood k ha
      have hlt := (hcols k ha).2.2
      rw [List.getD_eq_getElem tps [] (by omega)] at hlt
      rw [precGainCol_length _ _ hg.1, hlt]
      exact hthr2
    rw [if_pos hg1]
    have hg2 : ∀ c ∈ List.zipWith recGainCol fps tps, ∀ dl ∈ diffF c,
        F.lt dl (F.fin 0) = false := by
      intro c hc
      exact diffF_nonneg_of_chain c (hchain c hc)
    rw [if_pos hg2, if_pos ⟨hle1, hguardE⟩]
  refine ⟨fps, tps, thr, dfps, dtps, heq, hsucc, hchain, ?_, hle1, ?_⟩
  · intro c hc i hi hlt
    have hi' : i < (clip0 c).length := by
      simp only [clip0, List.length_map]
      omega
    unfold clip0
    rw [List.getD_eq_getElem _ _ (by rw [List.length_map]; omega :
        i < (c.map (fun v => F.fmax (F.fin 0) v)).length), List.getElem_map]
    rw [List.getD_eq_getElem _ F.nan hi] at hlt
    exact fmax0_of_lt _ hlt
  · intro k hk i hi hne
    have hka : k < (List.zipWith recGainCol fps tps).length := by
      rw [List.length_zipWith]
      omega
    have hkb : k < (List.zipWith precGainCol fps tps).length := by
      rw [List.length_zipWith]
      omega
    rw [getD_map_gen _ _ k hka [] [],
      getD_zipWith _ _ _ k hk (by omega) [] [] []] at hi hne
    rw [getD_map_gen _ _ k hkb [] [], getD_zipWith _ _ _ k hk (by omega) [] [] []]
    have hgl := prg_final_guard (fps.getD k []) (tps.getD k [])
      (by
        have := hgood k hk
        rwa [← List.getD_eq_getElem fps [] hk, ← List.getD_eq_getElem tps [] (by omega)]
          at this) i hi
    rw [Bool.or_eq_true] at hgl
    rcases hgl with hbeq | hle
    · rw [beq_fin_zero_false _ hne] at hbeq
      cases hbeq
    · exact hle

/-- C7: for every valid input the threshold output is a single
one-dimensional strictly decreasing sequence led by `+inf`, shared by all
replicate columns and of the same length as the count matrices' threshold
axis; its remaining elements are exactly the distinct score values, and the
pre-correction count matrices are all zero in the sentinel row. -/
theorem claim_C7 (y : List Bool) (sc : List ℚ) (sw : Option (List (List ℚ)))
    (h : clfValid y sc sw) :
    ∃ fps tps thr dfps dtps,
      binary_clf_curve y sc sw = some (fps, tps, thr, dfps, dtps) ∧
      thr.headD 0 = ⊤ ∧
      List.Chain' (fun a b => b < a) thr ∧
      (∀ c ∈ fps, c.length = thr.length) ∧ (∀ c ∈ tps, c.length = thr.length) ∧
      (∀ q : ℚ, (q : WithTop ℚ) ∈ thr.tail ↔ q ∈ sc) ∧
      (∃ fps0 tps0 d0, binary_clf_curve y sc sw = finishEngine fps0 tps0 thr d0 ∧
        (∀ c ∈ fps0, c.headD 1 = 0) ∧ (∀ c ∈ tps0, c.headD 1 = 0) ∧
        (∀ c ∈ fps0, c.length = thr.length) ∧ (∀ c ∈ tps0, c.length = thr.length)) := by
  obtain ⟨fps, tps, thr, dfps, dtps, heq, hdd, hft, hf1, hcols, hthr2, hhead, hchain,
    hmem, hraw⟩ := clf_master y sc sw h
  refine ⟨fps, tps, thr, dfps, dtps, heq, hhead, hchain, ?_, ?_, hmem, hraw⟩
  · intro c hc
    obtain ⟨k, hk, rfl⟩ := mem_getD_elim fps [] hc
    exact (hcols k hk).2.1
  · intro c hc
    obtain ⟨k, hk, rfl⟩ := mem_getD_elim tps [] hc
    exact (hcols k (by omega)).2.2

/-- C8: the engine fails exactly on the inputs violating its preconditions
(empty labels, shape mismatch, missing or non-positive weight entries, wrong
weight-matrix row count, or no weight column); the structurally impossible
numpy conditions (non-boolean labels, non-finite values, non-2-d weight
arrays) are excluded by the embedding's types. -/
theorem claim_C8 (y : List Bool) (sc : List ℚ) (sw : Option (List (List ℚ))) :
    (binary_clf_curve y sc sw).isSome = true ↔ clfValid y sc sw := by
  constructor
  · intro hs
    unfold binary_clf_curve at hs
    by_cases h1 : sc.length = y.length ∧ 1 ≤ y.length
    · cases sw with
      | none => exact ⟨h1.1, h1.2, trivial⟩
      | some W =>
        rw [if_pos h1] at hs
        dsimp only at hs
        by_cases h2 : W.length = y.length ∧ 1 ≤ (W.headD []).length ∧
            (∀ r ∈ W, r.length = (W.headD []).length) ∧ (∀ r ∈ W, ∀ x ∈ r, 0 < x)
        · exact ⟨h1.1, h1.2, h2⟩
        · rw [if_neg h2] at hs
          cases hs
    · rw [if_neg h1] at hs
      cases hs
  · intro hv
    obtain ⟨fps, tps, thr, dfps, dtps, heq, _⟩ := clf_master y sc sw hv
    rw [heq]
    rfl

/-- C10: for every valid input the engine's output has at least two rows
(the `+inf` sentinel plus at least one real threshold), so the first-row
overwrites of `recall_precision_curve` and `prg_curve` always read an
existing second row. -/
theorem claim_C10 (y : List Bool) (sc : List ℚ) (sw : Option (List (List ℚ)))
    (h : clfValid y sc sw) :
    ∃ fps tps thr dfps dtps,
      binary_clf_curve y sc sw = some (fps, tps, thr, dfps, dtps) ∧
      2 ≤ thr.length ∧
      (∀ c ∈ fps, 2 ≤ c.length) ∧ (∀ c ∈ tps, 2 ≤ c.length) ∧
      (∀ c ∈ List.zipWith precCol fps tps, 2 ≤ c.length) ∧
      (∀ c ∈ List.zipWith precGainCol fps tps, 2 ≤ c.length) := by
  obtain ⟨fps, tps, thr, dfps, dtps, heq, hdd, hft, hf1, hcols, hthr2, _⟩ :=
    clf_master y sc sw h
  have htwo : ∀ k, (hk : k < fps.length) → 2 ≤ tps[k].length ∧ fps[k].length = tps[k].length := by
    intro k hk
    have hg := (hcols k hk).1
    rw [List.getD_eq_getElem fps [] hk, List.getD_eq_getElem tps [] (by omega)] at hg
    exact ⟨hg.2.1, hg.1⟩
  refine ⟨fps, tps, thr, dfps, dtps, heq, hthr2, ?_, ?_, ?_, ?_⟩
  · intro c hc
    obtain ⟨k, hk, hck⟩ := List.mem_iff_getElem.mp hc
    obtain ⟨h2, hlen⟩ := htwo k hk
    rw [← hck]
    omega
  · intro c hc
    obtain ⟨k, hk, hck⟩ := List.mem_iff_getElem.mp hc
    obtain ⟨h2, _⟩ := htwo k (by omega)
    rw [← hck]
    omega
  · intro c hc
    obtain ⟨k, ha, hb, rfl⟩ := mem_zipWith_elim _ hc
    obtain ⟨h2, hlen⟩ := htwo k ha
    rw [precCol_length _ _ hlen]
    omega
  · intro c hc
    obtain ⟨k, ha, hb, rfl⟩ := mem_zipWith_elim _ hc
    obtain ⟨h2, hlen⟩ := htwo k ha
    rw [precGainCol_length _ _ hlen]
    omega

/-! ## Degenerate single-class inputs (for the pseudo-point claim) -/

theorem getD_mem_gen {α : Type} (l : List α) (i : ℕ) (h : i < l.length) (d : α) :
    l.getD i d ∈ l := by
  rw [List.getD_eq_getElem l d h]
  exact List.getElem_mem _

theorem nv_eps_fpsfix (f t : List ℚ) (hf : lastZero f = true) (ht : lastZero t = false) :
    nv_add_pseudo_points f t = (t.map (fun x => EPSILON * x), t) := by
  unfold nv_add_pseudo_points
  rw [hf, ht]
  simp

theorem nv_eps_tpsfix (f t : List ℚ) (hf : lastZero f = false) (ht : lastZero t = true) :
    nv_add_pseudo_points f t = (f, f.map (fun x => EPSILON * x)) := by
  unfold nv_add_pseudo_points
  rw [hf, ht]
  simp

theorem zipWith_wPos_allTrue (lab : List Bool) (ws : List ℚ)
    (h : ∀ l ∈ lab, l = true) (hl : lab.length = ws.length) :
    List.zipWith wPos lab ws = ws := by
  induction lab generalizing ws with
  | nil =>
    have : ws = [] := List.length_eq_zero.mp hl.symm
    simp [this]
  | cons l ls ih =>
    cases ws with
    | nil => simp at hl
    | cons w wss =>
      have hlt : l = true := h l (List.mem_cons_self _ _)
      rw [List.zipWith_cons_cons, hlt]
      rw [ih wss (fun x hx => h x (List.mem_cons_of_mem _ hx)) (by simpa using hl)]
      rfl

theorem zipWith_wNeg_allTrue (lab : List Bool) (ws : List ℚ)
    (h : ∀ l ∈ lab, l = true) : ∀ x ∈ List.zipWith wNeg lab ws, x = 0 := by
  induction lab generalizing ws with
  | nil => intro x hx; simp at hx
  | cons l ls ih =>
    intro x hx
    cases ws with
    | nil => simp at hx
    | cons w wss =>
      rw [List.zipWith_cons_cons, List.mem_cons] at hx
      rcases hx with rfl | hx'
      · rw [h l (List.mem_cons_self _ _)]
        rfl
      · exact ih wss (fun a ha => h a (List.mem_cons_of_mem _ ha)) x hx'

theorem zipWith_wNeg_allFalse (lab : List Bool) (ws : List ℚ)
    (h : ∀ l ∈ lab, l = false) (hl : lab.length = ws.length) :
    List.zipWith wNeg lab ws = ws := by
  induction lab generalizing ws with
  | nil =>
    have : ws = [] := List.length_eq_zero.mp hl.symm
    simp [this]
  | cons l ls ih =>
    cases ws with
    | nil => simp at hl
    | cons w wss =>
      have hlt : l = false := h l (List.mem_cons_self _ _)
      rw [List.zipWith_cons_cons, hlt]
      rw [ih wss (fun x hx => h x (List.mem_cons_of_mem _ hx)) (by simpa using hl)]
      rfl

theorem zipWith_wPos_allFalse (lab : List Bool) (ws : List ℚ)
    (h : ∀ l ∈ lab, l = false) : ∀ x ∈ List.zipWith wPos lab ws, x = 0 := by
  induction lab generalizing ws with
  | nil => intro x hx; simp at hx
  | cons l ls ih =>
    intro x hx
    cases ws with
    | nil => simp at hx
    | cons w wss =>
      rw [List.zipWith_cons_cons, List.mem_cons] at hx
      rcases hx with rfl | hx'
      · rw [h l (List.mem_cons_self _ _)]
        rfl
      · exact ih wss (fun a ha => h a (List.mem_cons_of_mem _ ha)) x hx'

theorem fpsCol_allTrue_zero (lab : List Bool) (ws : List ℚ) (s : List ℚ)
    (hlw : lab.length = ws.length) (hws : ws.length = s.length) (hn : 1 ≤ s.length)
    (hall : ∀ l ∈ lab, l = true) :
    ∀ v ∈ fpsCol lab ws (thresholdIdxs s), v = 0 := by
  rw [fpsCol_eq lab ws s hlw hws hn]
  intro v hv
  rcases List.mem_map.mp hv with ⟨i, hi, rfl⟩
  have hneg : (List.zipWith wNeg lab ws).length = s.length := by
    rw [List.length_zipWith, hlw, hws, min_self]
  rw [cumsum_getD _ _ (by rw [hneg]; exact thresholdIdxs_mem_lt s hn i hi)]
  refine List.sum_eq_zero ?_
  intro x hx
  exact zipWith_wNeg_allTrue lab ws hall x (List.mem_of_mem_take hx)

theorem tpsCol_allFalse_zero (lab : List Bool) (ws : List ℚ) (s : List ℚ)
    (hlw : lab.length = ws.length) (hws : ws.length = s.length) (hn : 1 ≤ s.length)
    (hall : ∀ l ∈ lab, l = false) :
    ∀ v ∈ tpsCol lab ws (thresholdIdxs s), v = 0 := by
  intro v hv
  rcases List.mem_map.mp hv with ⟨i, hi, rfl⟩
  have hpos : (List.zipWith wPos lab ws).length = s.length := by
    rw [List.length_zipWith, hlw, hws, min_self]
  rw [cumsum_getD _ _ (by rw [hpos]; exact thresholdIdxs_mem_lt s hn i hi)]
  refine List.sum_eq_zero ?_
  intro x hx
  exact zipWith_wPos_allFalse lab ws hall x (List.mem_of_mem_take hx)

theorem lastZero_of_all_zero (c : List ℚ) (h : ∀ v ∈ c, v = 0) : lastZero c = true := by
  unfold lastZero
  rw [decide_eq_true_eq]
  cases c with
  | nil => rfl
  | cons x xs => exact h _ (getLastD_mem (x :: xs) (by simp) 0)

theorem lastZero_false_of_pos (c : List ℚ) (h : 0 < c.getLastD 0) : lastZero c = false := by
  unfold lastZero
  rw [decide_eq_false_iff_not]
  exact ne_of_gt h

theorem cons_zero_getLastD (c : List ℚ) :
    ((0 : ℚ) :: c).getLastD 0 = c.getLastD 0 := by
  rw [List.getLastD_cons]

theorem tpsCol_ne_nil (lab : List Bool) (ws : List ℚ) (s : List ℚ) :
    tpsCol lab ws (thresholdIdxs s) ≠ [] := by
  unfold tpsCol
  simp [thresholdIdxs_ne_nil s]

theorem fpsCol_ne_nil (lab : List Bool) (ws : List ℚ) (s : List ℚ) :
    fpsCol lab ws (thresholdIdxs s) ≠ [] := by
  intro hnil
  have := fpsCol_length lab ws (thresholdIdxs s)
  rw [hnil] at this
  exact thresholdIdxs_ne_nil s (List.length_eq_zero.mp this.symm)

/-- With an all-positive label list, the finish stage replaces every
false-positive column by `EPSILON` times the true-positive column. -/
theorem finish_allTrue (s : List ℚ) (lab : List Bool) (wcols : List (List ℚ)) (d : Dtype)
    (hls : lab.length = s.length) (hn : 1 ≤ s.length)
    (hwlen : ∀ w ∈ wcols, w.length = s.length)
    (hwpos : ∀ w ∈ wcols, ∀ x ∈ w, 0 < x)
    (hall : ∀ l ∈ lab, l = true) :
    ∃ fps tps dfps dtps,
      finishEngine (wcols.map (fun w => (0 : ℚ) :: fpsCol lab w (thresholdIdxs s)))
          (wcols.map (fun w => (0 : ℚ) :: tpsCol lab w (thresholdIdxs s)))
          (clfThresholds s (thresholdIdxs s)) d
        = some (fps, tps, clfThresholds s (thresholdIdxs s), dfps, dtps) ∧
      fps = tps.map (fun c => c.map (fun x => EPSILON * x)) ∧
      (∀ c ∈ fps, 0 < c.getLastD 0) ∧ (∀ c ∈ tps, 0 < c.getLastD 0) := by
  obtain ⟨fps, tps, dfps, dtps, heq, hdd, hfl, htl, hcols⟩ :=
    finish_master s lab wcols d hls hn hwlen hwpos
  have hcolfix : ∀ w ∈ wcols,
      nv_add_pseudo_points ((0 : ℚ) :: fpsCol lab w (thresholdIdxs s))
          ((0 : ℚ) :: tpsCol lab w (thresholdIdxs s)) =
        (((0 : ℚ) :: tpsCol lab w (thresholdIdxs s)).map (fun x => EPSILON * x),
          (0 : ℚ) :: tpsCol lab w (thresholdIdxs s)) := by
    intro w hw
    have hlw : lab.length = w.length := by rw [hls, hwlen w hw]
    refine nv_eps_fpsfix _ _ ?_ ?_
    · refine lastZero_of_all_zero _ ?_
      intro v hv
      rcases List.mem_cons.mp hv with rfl | hv'
      · rfl
      · exact fpsCol_allTrue_zero lab w s hlw (hwlen w hw) hn hall v hv'
    · refine lastZero_false_of_pos _ ?_
      rw [cons_zero_getLastD _,
        tpsCol_getLastD lab w s hlw (hwlen w hw) hn,
        zipWith_wPos_allTrue lab w hall hlw]
      refine List.sum_pos _ (hwpos w hw) ?_
      intro hnil
      have := hwlen w hw
      rw [hnil] at this
      simp at this
      omega
  have heq2 := finishEngine_eq
    (wcols.map (fun w => (0 : ℚ) :: fpsCol lab w (thresholdIdxs s)))
    (wcols.map (fun w => (0 : ℚ) :: tpsCol lab w (thresholdIdxs s)))
    (clfThresholds s (thresholdIdxs s)) d (by simp)
    (by
      intro k hk
      rw [List.length_map] at hk
      rw [getD_map_gen _ _ k hk [] [], getD_map_gen _ _ k hk [] []]
      have hmem : wcols.getD k [] ∈ wcols := getD_mem_gen wcols k hk []
      exact rawCol_holds lab (wcols.getD k []) s hls (hwlen _ hmem) hn (hwpos _ hmem))
  rw [heq] at heq2
  have h5 := Option.some.inj heq2
  have hfps : fps = List.zipWith (fun f t => (nv_add_pseudo_points f t).1)
      (wcols.map (fun w => (0 : ℚ) :: fpsCol lab w (thresholdIdxs s)))
      (wcols.map (fun w => (0 : ℚ) :: tpsCol lab w (thresholdIdxs s))) :=
    congrArg (fun p => p.1) h5
  have htps : tps = List.zipWith (fun f t => (nv_add_pseudo_points f t).2)
      (wcols.map (fun w => (0 : ℚ) :: fpsCol lab w (thresholdIdxs s)))
      (wcols.map (fun w => (0 : ℚ) :: tpsCol lab w (thresholdIdxs s))) :=
    congrArg (fun p => p.2.1) h5
  refine ⟨fps, tps, dfps, dtps, heq, ?_, ?_, ?_⟩
  · rw [hfps, htps, List.map_zipWith]
    apply List.ext_getElem
    · simp
    · intro i h1 h2
      rw [List.getElem_zipWith, List.getElem_zipWith]
      have hiw : i < wcols.length := by
        rw [List.length_zipWith] at h1
        simp at h1
        omega
      rw [List.getElem_map, List.getElem_map]
      rw [hcolfix wcols[i] (List.getElem_mem _)]
  · intro c hc
    obtain ⟨k, hk, rfl⟩ := mem_getD_elim fps [] hc
    exact ((hcols k (by omega)).1).2.2.2.2.2.2.2.2.1
  · intro c hc
    obtain ⟨k, hk, rfl⟩ := mem_getD_elim tps [] hc
    exact ((hcols k (by omega)).1).2.2.2.2.2.2.2.2.2.1

/-- With an all-negative label list, the finish stage replaces every
true-positive column by `EPSILON` times the false-positive column. -/
theorem finish_allFalse (s : List ℚ) (lab : List Bool) (wcols : List (List ℚ)) (d : Dtype)
    (hls : lab.length = s.length) (hn : 1 ≤ s.length)
    (hwlen : ∀ w ∈ wcols, w.length = s.length)
    (hwpos : ∀ w ∈ wcols, ∀ x ∈ w, 0 < x)
    (hall : ∀ l ∈ lab, l = false) :
    ∃ fps tps dfps dtps,
      finishEngine (wcols.map (fun w => (0 : ℚ) :: fpsCol lab w (thresholdIdxs s)))
          (wcols.map (fun w => (0 : ℚ) :: tpsCol lab w (thresholdIdxs s)))
          (clfThresholds s (thresholdIdxs s)) d
        = some (fps, tps, clfThresholds s (thresholdIdxs s), dfps, dtps) ∧
      tps = fps.map (fun c => c.map (fun x => EPSILON * x)) ∧
      (∀ c ∈ fps, 0 < c.getLastD 0) ∧ (∀ c ∈ tps, 0 < c.getLastD 0) := by
  obtain ⟨fps, tps, dfps, dtps, heq, hdd, hfl, htl, hcols⟩ :=
    finish_master s lab wcols d hls hn hwlen hwpos
  have hcolfix : ∀ w ∈ wcols,
      nv_add_pseudo_points ((0 : ℚ) :: fpsCol lab w (thresholdIdxs s))
          ((0 : ℚ) :: tpsCol lab w (thresholdIdxs s)) =
        ((0 : ℚ) :: fpsCol lab w (thresholdIdxs s),
          ((0 : ℚ) :: fpsCol lab w (thresholdIdxs s)).map (fun x => EPSILON * x)) := by
    intro w hw
    have hlw : lab.length = w.length := by rw [hls, hwlen w hw]
    refine nv_eps_tpsfix _ _ ?_ ?_
    · refine lastZero_false_of_pos _ ?_
      rw [cons_zero_getLastD _,
        fpsCol_getLastD lab w s hlw (hwlen w hw) hn,
        zipWith_wNeg_allFalse lab w hall hlw]
      refine List.sum_pos _ (hwpos w hw) ?_
      intro hnil
      have := hwlen w hw
      rw [hnil] at this
      simp at this
      omega
    · refine lastZero_of_all_zero _ ?_
      intro v hv
      rcases List.mem_cons.mp hv with rfl | hv'
      · rfl
      · exact tpsCol_allFalse_zero lab w s hlw (hwlen w hw) hn hall v hv'
  have heq2 := finishEngine_eq
    (wcols.map (fun w => (0 : ℚ) :: fpsCol lab w (thresholdIdxs s)))
    (wcols.map (fun w => (0 : ℚ) :: tpsCol lab w (thresholdIdxs s)))
    (clfThresholds s (thresholdIdxs s)) d (by simp)
    (by
      intro k hk
      rw [List.length_map] at hk
      rw [getD_map_gen _ _ k hk [] [], getD_map_gen _ _ k hk [] []]
      have hmem : wcols.getD k [] ∈ wcols := getD_mem_gen wcols k hk []
      exact rawCol_holds lab (wcols.getD k []) s hls (hwlen _ hmem) hn (hwpos _ hmem))
  rw [heq] at heq2
  have h5 := Option.some.inj heq2
  have hfps : fps = List.zipWith (fun f t => (nv_add_pseudo_points f t).1)
      (wcols.map (fun w => (0 : ℚ) :: fpsCol lab w (thresholdIdxs s)))
      (wcols.map (fun w => (0 : ℚ) :: tpsCol lab w (thresholdIdxs s))) :=
    congrArg (fun p => p.1) h5
  have htps : tps = List.zipWith (fun f t => (nv_add_pseudo_points f t).2)
      (wcols.map (fun w => (0 : ℚ) :: fpsCol lab w (thresholdIdxs s)))
      (wcols.map (fun w => (0 : ℚ) :: tpsCol lab w (thresholdIdxs s))) :=
    congrArg (fun p => p.2.1) h5
  refine ⟨fps, tps, dfps, dtps, heq, ?_, ?_, ?_⟩
  · rw [hfps, htps, List.map_zipWith]
    apply List.ext_getElem
    · simp
    · intro i h1 h2
      rw [List.getElem_zipWith, List.getElem_zipWith]
      have hiw : i < wcols.length := by
        rw [List.length_zipWith] at h1
        simp at h1
        omega
      rw [List.getElem_map, List.getElem_map]
      rw [hcolfix wcols[i] (List.getElem_mem _)]
  · intro c hc
    obtain ⟨k, hk, rfl⟩ := mem_getD_elim fps [] hc
    exact ((hcols k (by omega)).1).2.2.2.2.2.2.2.2.1
  · intro c hc
    obtain ⟨k, hk, rfl⟩ := mem_getD_elim tps [] hc
    exact ((hcols k (by omega)).1).2.2.2.2.2.2.2.2.2.1

/-- C2: on an all-`True` (respectively all-`False`) label vector with any
valid scores and weights, the engine does not fail, the zero-total count
matrix is replaced by `EPSILON` times the other one in every column, and
both final rows are strictly positive. -/
theorem claim_C2 (y : List Bool) (sc : List ℚ) (sw : Option (List (List ℚ)))
    (h : clfValid y sc sw) :
    ((∀ l ∈ y, l = true) → ∃ fps tps thr dfps dtps,
      binary_clf_curve y sc sw = some (fps, tps, thr, dfps, dtps) ∧
      fps = tps.map (fun c => c.map (fun x => EPSILON * x)) ∧
      (∀ c ∈ fps, 0 < c.getLastD 0) ∧ (∀ c ∈ tps, 0 < c.getLastD 0)) ∧
    ((∀ l ∈ y, l = false) → ∃ fps tps thr dfps dtps,
      binary_clf_curve y sc sw = some (fps, tps, thr, dfps, dtps) ∧
      tps = fps.map (fun c => c.map (fun x => EPSILON * x)) ∧
      (∀ c ∈ fps, 0 < c.getLastD 0) ∧ (∀ c ∈ tps, 0 < c.getLastD 0)) := by
  obtain ⟨h1, h2, hsw⟩ := h
  have hlab : ((argsortDesc sc).map (fun i => y.getD i false)).length
      = ((argsortDesc sc).map (fun i => sc.getD i 0)).length := by simp
  have hslen : ((argsortDesc sc).map (fun i => sc.getD i 0)).length = sc.length := by
    rw [List.length_map, argsortDesc_length]
  have hn : 1 ≤ ((argsortDesc sc).map (fun i => sc.getD i 0)).length := by omega
  have hmemlab : ∀ b : Bool, (∀ l ∈ y, l = b) →
      ∀ l ∈ (argsortDesc sc).map (fun i => y.getD i false), l = b := by
    intro b hb l hl
    rcases List.mem_map.mp hl with ⟨i, hi, rfl⟩
    have hil : i < y.length := by
      rw [← h1]
      exact argsortDesc_mem_lt sc i hi
    exact hb _ (getD_mem_gen y i hil false)
  constructor
  · intro hall
    have hallS := hmemlab true hall
    cases sw with
    | none =>
      rw [clf_none_eq y sc h1 h2]
      obtain ⟨fps, tps, dfps, dtps, heq, hrel, hpf, hpt⟩ :=
        finish_allTrue ((argsortDesc sc).map (fun i => sc.getD i 0))
          ((argsortDesc sc).map (fun i => y.getD i false))
          [List.replicate ((argsortDesc sc).map (fun i => y.getD i false)).length (1 : ℚ)]
          Dtype.int hlab hn
          (by
            intro w hw
            rw [List.mem_singleton] at hw
            subst hw
            rw [List.length_replicate, hlab])
          (by
            intro w hw
            rw [List.mem_singleton] at hw
            subst hw
            intro x hx
            rw [List.eq_of_mem_replicate hx]
            norm_num)
          hallS
      exact ⟨fps, tps, _, dfps, dtps, heq, hrel, hpf, hpt⟩
    | some W =>
      obtain ⟨h3, h4, h5, h6⟩ := hsw
      rw [clf_some_eq y sc W h1 h2 h3 h4 h5 h6]
      obtain ⟨fps, tps, dfps, dtps, heq, hrel, hpf, hpt⟩ :=
        finish_allTrue ((argsortDesc sc).map (fun i => sc.getD i 0))
          ((argsortDesc sc).map (fun i => y.getD i false))
          ((List.range (W.headD []).length).map (fun j =>
            (argsortDesc sc).map (fun i => (W.getD i []).getD j 0)))
          Dtype.float hlab hn
          (by
            intro w hw
            rcases List.mem_map.mp hw with ⟨j, _, rfl⟩
            rw [List.length_map, argsortDesc_length, hslen])
          (by
            intro w hw
            rcases List.mem_map.mp hw with ⟨j, hj, rfl⟩
            intro x hx
            rcases List.mem_map.mp hx with ⟨i, hi, rfl⟩
            have hilt : i < W.length := by
              rw [h3, ← h1]
              exact argsortDesc_mem_lt sc i hi
            have hrow : W.getD i [] ∈ W := getD_mem_gen W i hilt []
            have hjm : j < (W.getD i []).length := by
              rw [h5 _ hrow]
              exact List.mem_range.mp hj
            exact h6 _ hrow _ (getD_mem_rat _ j hjm 0))
          hallS
      exact ⟨fps, tps, _, dfps, dtps, heq, hrel, hpf, hpt⟩
  · intro hall
    have hallS := hmemlab false hall
    cases sw with
    | none =>
      rw [clf_none_eq y sc h1 h2]
      obtain ⟨fps, tps, dfps, dtps, heq, hrel, hpf, hpt⟩ :=
        finish_allFalse ((argsortDesc sc).map (fun i => sc.getD i 0))
          ((argsortDesc sc).map (fun i => y.getD i false))
          [List.replicate ((argsortDesc sc).map (fun i => y.getD i false)).length (1 : ℚ)]
          Dtype.int hlab hn
          (by
            intro w hw
            rw [List.mem_singleton] at hw
            subst hw
            rw [List.length_replicate, hlab])
          (by
            intro w hw
            rw [List.mem_singleton] at hw
            subst hw
            intro x hx
            rw [List.eq_of_mem_replicate hx]
            norm_num)
          hallS
      exact ⟨fps, tps, _, dfps, dtps, heq, hrel, hpf, hpt⟩
    | some W =>
      obtain ⟨h3, h4, h5, h6⟩ := hsw
      rw [clf_some_eq y sc W h1 h2 h3 h4 h5 h6]
      obtain ⟨fps, tps, dfps, dtps, heq, hrel, hpf, hpt⟩ :=
        finish_allFalse ((argsortDesc sc).map (fun i => sc.getD i 0))
          ((argsortDesc sc).map (fun i => y.getD i false))
          ((List.range (W.headD []).length).map (fun j =>
            (argsortDesc sc).map (fun i => (W.getD i []).getD j 0)))
          Dtype.float hlab hn
          (by
            intro w hw
            rcases List.mem_map.mp hw with ⟨j, _, rfl⟩
            rw [List.length_map, argsortDesc_length, hslen])
          (by
            intro w hw
            rcases List.mem_map.mp hw with ⟨j, hj, rfl⟩
            intro x hx
            rcases List.mem_map.mp hx with ⟨i, hi, rfl⟩
            have hilt : i < W.length := by
              rw [h3, ← h1]
              exact argsortDesc_mem_lt sc i hi
            have hrow : W.getD i [] ∈ W := getD_mem_gen W i hilt []
            have hjm : j < (W.getD i []).length := by
              rw [h5 _ hrow]
              exact List.mem_range.mp hj
            exact h6 _ hrow _ (getD_mem_rat _ j hjm 0))
          hallS
      exact ⟨fps, tps, _, dfps, dtps, heq, hrel, hpf, hpt⟩

/-! ## The sequential reference implementation agrees with the engine -/

theorem nv_head_sum_pos (lab : List Bool) (ws : List ℚ) (s : List ℚ)
    (hlw : lab.length = ws.length) (hws : ws.length = s.length) (hn : 1 ≤ s.length)
    (hw : ∀ x ∈ ws, 0 < x) :
    0 < (tpsCol lab ws (thresholdIdxs s)).headD 0 +
      (fpsCol lab ws (thresholdIdxs s)).headD 0 := by
  have htlen : 1 ≤ (thresholdIdxs s).length :=
    List.length_pos.mpr (thresholdIdxs_ne_nil s)
  rw [headD_eq_getD, headD_eq_getD, tps_add_fps_getD lab ws s hlw hws hn 0 (by omega)]
  refine cumsum_getD_pos ws hw _ ?_
  rw [hws]
  refine thresholdIdxs_mem_lt s hn _ ?_
  exact getD_mem_gen _ 0 (by omega) 0

/-- The per-column finish facts needed to drive the sequential reference
implementation through its assertions. -/
theorem nv_finish_facts (lab : List Bool) (ws : List ℚ) (s : List ℚ)
    (hlw : lab.length = ws.length) (hws : ws.length = s.length) (hn : 1 ≤ s.length)
    (hw : ∀ x ∈ ws, 0 < x) :
    (¬ ((tpsCol lab ws (thresholdIdxs s)).headD 0 = 0 ∧
        (fpsCol lab ws (thresholdIdxs s)).headD 0 = 0)) ∧
    (0 < (nv_add_pseudo_points ((0 : ℚ) :: fpsCol lab ws (thresholdIdxs s))
        ((0 : ℚ) :: tpsCol lab ws (thresholdIdxs s))).1.getLastD 0 ∧
      0 < (nv_add_pseudo_points ((0 : ℚ) :: fpsCol lab ws (thresholdIdxs s))
        ((0 : ℚ) :: tpsCol lab ws (thresholdIdxs s))).2.getLastD 0) ∧
    cummax (nv_add_pseudo_points ((0 : ℚ) :: fpsCol lab ws (thresholdIdxs s))
        ((0 : ℚ) :: tpsCol lab ws (thresholdIdxs s))).1 =
      (nv_add_pseudo_points ((0 : ℚ) :: fpsCol lab ws (thresholdIdxs s))
        ((0 : ℚ) :: tpsCol lab ws (thresholdIdxs s))).1 ∧
    (∀ dl ∈ diffsQ (cummax (nv_add_pseudo_points
        ((0 : ℚ) :: fpsCol lab ws (thresholdIdxs s))
        ((0 : ℚ) :: tpsCol lab ws (thresholdIdxs s))).1), 0 ≤ dl) ∧
    (∀ dl ∈ diffsQ (nv_add_pseudo_points ((0 : ℚ) :: fpsCol lab ws (thresholdIdxs s))
        ((0 : ℚ) :: tpsCol lab ws (thresholdIdxs s))).2, 0 ≤ dl) := by
  have hraw := rawCol_holds lab ws s (by omega) hws hn hw
  obtain ⟨hgood, hcm⟩ := rawCol_finish _ _ hraw
  refine ⟨?_, ⟨?_, ?_⟩, hcm, ?_, ?_⟩
  · intro ⟨ht, hf⟩
    have := nv_head_sum_pos lab ws s hlw hws hn hw
    rw [ht, hf] at this
    exact lt_irrefl 0 (by linarith)
  · rw [hcm] at hgood
    exact hgood.2.2.2.2.2.2.2.2.1
  · exact hgood.2.2.2.2.2.2.2.2.2.1
  · exact (chain'_le_iff_diffsQ _).mp hgood.2.2.2.2.1
  · exact (chain'_le_iff_diffsQ _).mp hgood.2.2.2.2.2.1

/-- The unweighted sequential reference, reduced to the shared per-column
pipeline on the all-ones weight column. -/
theorem nv_none_eq (y : List Bool) (sc : List ℚ) (h1 : sc.length = y.length)
    (h2 : 1 ≤ y.length) :
    nv_binary_clf_curve y sc none =
      some ((nv_add_pseudo_points
          ((0 : ℚ) :: fpsCol ((argsortDesc sc).map (fun i => y.getD i false))
            (List.replicate ((argsortDesc sc).map (fun i => y.getD i false)).length (1 : ℚ))
            (thresholdIdxs ((argsortDesc sc).map (fun i => sc.getD i 0))))
          ((0 : ℚ) :: tpsCol ((argsortDesc sc).map (fun i => y.getD i false))
            (List.replicate ((argsortDesc sc).map (fun i => y.getD i false)).length (1 : ℚ))
            (thresholdIdxs ((argsortDesc sc).map (fun i => sc.getD i 0))))).1,
        (nv_add_pseudo_points
          ((0 : ℚ) :: fpsCol ((argsortDesc sc).map (fun i => y.getD i false))
            (List.replicate ((argsortDesc sc).map (fun i => y.getD i false)).length (1 : ℚ))
            (thresholdIdxs ((argsortDesc sc).map (fun i => sc.getD i 0))))
          ((0 : ℚ) :: tpsCol ((argsortDesc sc).map (fun i => y.getD i false))
            (List.replicate ((argsortDesc sc).map (fun i => y.getD i false)).length (1 : ℚ))
            (thresholdIdxs ((argsortDesc sc).map (fun i => sc.getD i 0))))).2,
        clfThresholds ((argsortDesc sc).map (fun i => sc.getD i 0))
          (thresholdIdxs ((argsortDesc sc).map (fun i => sc.getD i 0)))) := by
  have hlab : ((argsortDesc sc).map (fun i => y.getD i false)).length = sc.length := by
    rw [List.length_map, argsortDesc_length]
  have hs : ((argsortDesc sc).map (fun i => sc.getD i 0)).length = sc.length := by
    rw [List.length_map, argsortDesc_length]
  have hguard :
      (fpsColNone ((argsortDesc sc).map (fun i => y.getD i false))
          (thresholdIdxs ((argsortDesc sc).map (fun i => sc.getD i 0)))).getLastD 0 =
        ((((argsortDesc sc).map (fun i => y.getD i false)).filter (fun l => !l)).length : ℚ) ∧
      (tpsColNone ((argsortDesc sc).map (fun i => y.getD i false))
          (thresholdIdxs ((argsortDesc sc).map (fun i => sc.getD i 0)))).getLastD 0 =
        ((((argsortDesc sc).map (fun i => y.getD i false)).filter (fun l => l)).length : ℚ) := by
    constructor
    · rw [fpsColNone_eq _ _ (by omega) (by omega),
        fpsCol_getLastD _ _ _ (by simp [hlab]) (by simp [hlab, hs]) (by omega),
        sum_wNeg_ones]
    · rw [tpsColNone_eq,
        tpsCol_getLastD _ _ _ (by simp [hlab]) (by simp [hlab, hs]) (by omega),
        sum_wPos_ones]
  obtain ⟨ha, ⟨hb1, hb2⟩, hcm, hd1, hd2⟩ := nv_finish_facts
    ((argsortDesc sc).map (fun i => y.getD i false))
    (List.replicate ((argsortDesc sc).map (fun i => y.getD i false)).length (1 : ℚ))
    ((argsortDesc sc).map (fun i => sc.getD i 0))
    (by simp) (by simp [hlab, hs]) (by omega)
    (by
      intro x hx
      rw [List.eq_of_mem_replicate hx]
      norm_num)
  unfold nv_binary_clf_curve
  rw [if_pos ⟨h1, h2⟩]
  dsimp only
  rw [if_pos hguard, fpsColNone_eq _ _ (by omega) (by omega), tpsColNone_eq]
  rw [if_pos ha, if_pos ⟨hb1, hb2⟩, if_pos ⟨hd1, hd2⟩, hcm]

/-- The weighted sequential reference, reduced to the shared per-column
pipeline on the sorted weight column. -/
theorem nv_some_eq (y : List Bool) (sc : List ℚ) (w : List ℚ)
    (h1 : sc.length = y.length) (h2 : 1 ≤ y.length)
    (h3 : w.length = y.length) (h4 : ∀ x ∈ w, 0 < x) :
    nv_binary_clf_curve y sc (some w) =
      some ((nv_add_pseudo_points
          ((0 : ℚ) :: fpsCol ((argsortDesc sc).map (fun i => y.getD i false))
            ((argsortDesc sc).map (fun i => w.getD i 0))
            (thresholdIdxs ((argsortDesc sc).map (fun i => sc.getD i 0))))
          ((0 : ℚ) :: tpsCol ((argsortDesc sc).map (fun i => y.getD i false))
            ((argsortDesc sc).map (fun i => w.getD i 0))
            (thresholdIdxs ((argsortDesc sc).map (fun i => sc.getD i 0))))).1,
        (nv_add_pseudo_points
          ((0 : ℚ) :: fpsCol ((argsortDesc sc).map (fun i => y.getD i false))
            ((argsortDesc sc).map (fun i => w.getD i 0))
            (thresholdIdxs ((argsortDesc sc).map (fun i => sc.getD i 0))))
          ((0 : ℚ) :: tpsCol ((argsortDesc sc).map (fun i => y.getD i false))
            ((argsortDesc sc).map (fun i => w.getD i 0))
            (thresholdIdxs ((argsortDesc sc).map (fun i => sc.getD i 0))))).2,
        clfThresholds ((argsortDesc sc).map (fun i => sc.getD i 0))
          (thresholdIdxs ((argsortDesc sc).map (fun i => sc.getD i 0)))) := by
  have hlab : ((argsortDesc sc).map (fun i => y.getD i false)).length = sc.length := by
    rw [List.length_map, argsortDesc_length]
  have hs : ((argsortDesc sc).map (fun i => sc.getD i 0)).length = sc.length := by
    rw [List.length_map, argsortDesc_length]
  have hws : ((argsortDesc sc).map (fun i => w.getD i 0)).length = sc.length := by
    rw [List.length_map, argsortDesc_length]
  have hwpos : ∀ x ∈ (argsortDesc sc).map (fun i => w.getD i 0), 0 < x := by
    intro x hx
    rcases List.mem_map.mp hx with ⟨i, hi, rfl⟩
    have hil : i < w.length := by
      rw [h3, ← h1]
      exact argsortDesc_mem_lt sc i hi
    exact h4 _ (getD_mem_gen w i hil 0)
  have hguard :
      (fpsCol ((argsortDesc sc).map (fun i => y.getD i false))
          ((argsortDesc sc).map (fun i => w.getD i 0))
          (thresholdIdxs ((argsortDesc sc).map (fun i => sc.getD i 0)))).getLastD 0 =
        (List.zipWith wNeg ((argsortDesc sc).map (fun i => y.getD i false))
          ((argsortDesc sc).map (fun i => w.getD i 0))).sum ∧
      (tpsCol ((argsortDesc sc).map (fun i => y.getD i false))
          ((argsortDesc sc).map (fun i => w.getD i 0))
          (thresholdIdxs ((argsortDesc sc).map (fun i => sc.getD i 0)))).getLastD 0 =
        (List.zipWith wPos ((argsortDesc sc).map (fun i => y.getD i false))
          ((argsortDesc sc).map (fun i => w.getD i 0))).sum := by
    constructor
    · exact fpsCol_getLastD _ _ _ (by rw [hlab, hws]) (by rw [hws, hs]) (by omega)
    · exact tpsCol_getLastD _ _ _ (by rw [hlab, hws]) (by rw [hws, hs]) (by omega)
  obtain ⟨ha, ⟨hb1, hb2⟩, hcm, hd1, hd2⟩ := nv_finish_facts
    ((argsortDesc sc).map (fun i => y.getD i false))
    ((argsortDesc sc).map (fun i => w.getD i 0))
    ((argsortDesc sc).map (fun i => sc.getD i 0))
    (by rw [hlab, hws]) (by rw [hws, hs]) (by omega) hwpos
  unfold nv_binary_clf_curve
  rw [if_pos ⟨h1, h2⟩]
  dsimp only
  rw [if_pos ⟨h3, h4⟩, if_pos hguard, if_pos ha, if_pos ⟨hb1, hb2⟩,
    if_pos ⟨hd1, hd2⟩, hcm]

/-- C3: on single-column inputs (no weight matrix, or a one-column weight
matrix), the vectorized engine computes exactly the same false/true-positive
columns and threshold sequence as the sequential reference
`_nv_binary_clf_curve`. -/
theorem claim_C3 (y : List Bool) (sc : List ℚ) (h1 : sc.length = y.length)
    (h2 : 1 ≤ y.length) :
    (∃ f t thr d1 d2,
      binary_clf_curve y sc none = some ([f], [t], thr, d1, d2) ∧
      nv_binary_clf_curve y sc none = some (f, t, thr)) ∧
    (∀ w : List ℚ, w.length = y.length → (∀ x ∈ w, 0 < x) →
      ∃ f t thr d1 d2,
        binary_clf_curve y sc (some (w.map (fun x => [x]))) =
          some ([f], [t], thr, d1, d2) ∧
        nv_binary_clf_curve y sc (some w) = some (f, t, thr)) := by
  have hlab : ((argsortDesc sc).map (fun i => y.getD i false)).length = sc.length := by
    rw [List.length_map, argsortDesc_length]
  have hs : ((argsortDesc sc).map (fun i => sc.getD i 0)).length = sc.length := by
    rw [List.length_map, argsortDesc_length]
  constructor
  · have hfin := finishEngine_eq
      [(0 : ℚ) :: fpsCol ((argsortDesc sc).map (fun i => y.getD i false))
        (List.replicate ((argsortDesc sc).map (fun i => y.getD i false)).length (1 : ℚ))
        (thresholdIdxs ((argsortDesc sc).map (fun i => sc.getD i 0)))]
      [(0 : ℚ) :: tpsCol ((argsortDesc sc).map (fun i => y.getD i false))
        (List.replicate ((argsortDesc sc).map (fun i => y.getD i false)).length (1 : ℚ))
        (thresholdIdxs ((argsortDesc sc).map (fun i => sc.getD i 0)))]
      (clfThresholds ((argsortDesc sc).map (fun i => sc.getD i 0))
        (thresholdIdxs ((argsortDesc sc).map (fun i => sc.getD i 0))))
      Dtype.int rfl
      (by
        intro k hk
        simp only [List.length_cons, List.length_nil] at hk
        have hk0 : k = 0 := by omega
        subst hk0
        simp only [List.getD_cons_zero]
        exact rawCol_holds _ _ _ (by simp) (by simp [hlab, hs]) (by omega)
          (by
            intro x hx
            rw [List.eq_of_mem_replicate hx]
            norm_num))
    have hvec : binary_clf_curve y sc none =
        finishEngine
          [(0 : ℚ) :: fpsCol ((argsortDesc sc).map (fun i => y.getD i false))
            (List.replicate ((argsortDesc sc).map (fun i => y.getD i false)).length (1 : ℚ))
            (thresholdIdxs ((argsortDesc sc).map (fun i => sc.getD i 0)))]
          [(0 : ℚ) :: tpsCol ((argsortDesc sc).map (fun i => y.getD i false))
            (List.replicate ((argsortDesc sc).map (fun i => y.getD i false)).length (1 : ℚ))
            (thresholdIdxs ((argsortDesc sc).map (fun i => sc.getD i 0)))]
          (clfThresholds ((argsortDesc sc).map (fun i => sc.getD i 0))
            (thresholdIdxs ((argsortDesc sc).map (fun i => sc.getD i 0))))
          Dtype.int := by
      rw [clf_none_eq y sc h1 h2]
      simp only [List.map_cons, List.map_nil]
    rw [hfin] at hvec
    simp only [List.zipWith_cons_cons, List.zipWith_nil_right] at hvec
    exact ⟨_, _, _, _, _, hvec, nv_none_eq y sc h1 h2⟩
  · intro w hw1 hw2
    have hwne : w ≠ [] := by
      intro hnil
      rw [hnil] at hw1
      simp at hw1
      omega
    have hm1 : ((w.map (fun x => [x])).headD []).length = 1 := by
      cases w with
      | nil => exact absurd rfl hwne
      | cons x xs => rfl
    have h5 : ∀ r ∈ w.map (fun x => [x]), r.length = ((w.map (fun x => [x])).headD []).length := by
      intro r hr
      rcases List.mem_map.mp hr with ⟨x, _, rfl⟩
      rw [hm1]
      rfl
    have h6 : ∀ r ∈ w.map (fun x => [x]), ∀ x ∈ r, 0 < x := by
      intro r hr x hx
      rcases List.mem_map.mp hr with ⟨v, hv, rfl⟩
      rw [List.mem_singleton] at hx
      subst hx
      exact hw2 _ hv
    have hcol0 : (argsortDesc sc).map
        (fun i => ((w.map (fun x => [x])).getD i []).getD 0 0) =
        (argsortDesc sc).map (fun i => w.getD i 0) := by
      apply List.map_congr_left
      intro i hi
      have hil : i < w.length := by
        rw [hw1, ← h1]
        exact argsortDesc_mem_lt sc i hi
      rw [getD_map_gen (fun x => [x]) w i hil [] 0]
      rfl
    have hvec0 := clf_some_eq y sc (w.map (fun x => [x])) h1 h2
      (by rw [List.length_map, hw1]) (by omega) h5 h6
    have hr1 : List.range 1 = [0] := rfl
    rw [hm1, hr1, List.map_cons, List.map_nil, hcol0] at hvec0
    have hfin := finishEngine_eq
      [(0 : ℚ) :: fpsCol ((argsortDesc sc).map (fun i => y.getD i false))
        ((argsortDesc sc).map (fun i => w.getD i 0))
        (thresholdIdxs ((argsortDesc sc).map (fun i => sc.getD i 0)))]
      [(0 : ℚ) :: tpsCol ((argsortDesc sc).map (fun i => y.getD i false))
        ((argsortDesc sc).map (fun i => w.getD i 0))
        (thresholdIdxs ((argsortDesc sc).map (fun i => sc.getD i 0)))]
      (clfThresholds ((argsortDesc sc).map (fun i => sc.getD i 0))
        (thresholdIdxs ((argsortDesc sc).map (fun i => sc.getD i 0))))
      Dtype.float rfl
      (by
        intro k hk
        simp only [List.length_cons, List.length_nil] at hk
        have hk0 : k = 0 := by omega
        subst hk0
        simp only [List.getD_cons_zero]
        refine rawCol_holds _ _ _ (by simp) (by
          rw [List.length_map, argsortDesc_length, hs]) (by omega) ?_
        intro x hx
        rcases List.mem_map.mp hx with ⟨i, hi, rfl⟩
        have hil : i < w.length := by
          rw [hw1, ← h1]
          exact argsortDesc_mem_lt sc i hi
        exact hw2 _ (getD_mem_gen w i hil 0))
    simp only [List.map_cons, List.map_nil] at hvec0
    rw [hfin] at hvec0
    simp only [List.zipWith_cons_cons, List.zipWith_nil_right] at hvec0
    exact ⟨_, _, _, _, _, hvec0, nv_some_eq y sc w h1 h2 hw1 hw2⟩

theorem claim_C1_witness :
    ∃ fps tps thr dfps dtps,
      binary_clf_curve [true, false] [1, 0] none = some (fps, tps, thr, dfps, dtps) ∧
      (∀ c ∈ fps, List.Chain' (· ≤ ·) c) ∧ (∀ c ∈ tps, List.Chain' (· ≤ ·) c) ∧
      (∀ c ∈ fps, 0 < c.getLastD 0) ∧ (∀ c ∈ tps, 0 < c.getLastD 0) ∧
      dfps = dtps :=
  claim_C1 [true, false] [1, 0] none (by decide)

theorem claim_C2_witness :
    ((∀ l ∈ [true, true], l = true) → ∃ fps tps thr dfps dtps,
      binary_clf_curve [true, true] [1, 2] none = some (fps, tps, thr, dfps, dtps) ∧
      fps = tps.map (fun c => c.map (fun x => EPSILON * x)) ∧
      (∀ c ∈ fps, 0 < c.getLastD 0) ∧ (∀ c ∈ tps, 0 < c.getLastD 0)) ∧
    ((∀ l ∈ [true, true], l = false) → ∃ fps tps thr dfps dtps,
      binary_clf_curve [true, true] [1, 2] none = some (fps, tps, thr, dfps, dtps) ∧
      tps = fps.map (fun c => c.map (fun x => EPSILON * x)) ∧
      (∀ c ∈ fps, 0 < c.getLastD 0) ∧ (∀ c ∈ tps, 0 < c.getLastD 0)) :=
  claim_C2 [true, true] [1, 2] none (by decide)

theorem claim_C3_witness :
    (∃ f t thr d1 d2,
      binary_clf_curve [true, false] [1, 0] none = some ([f], [t], thr, d1, d2) ∧
      nv_binary_clf_curve [true, false] [1, 0] none = some (f, t, thr)) ∧
    (∀ w : List ℚ, w.length = [true, false].length → (∀ x ∈ w, 0 < x) →
      ∃ f t thr d1 d2,
        binary_clf_curve [true, false] [1, 0] (some (w.map (fun x => [x]))) =
          some ([f], [t], thr, d1, d2) ∧
        nv_binary_clf_curve [true, false] [1, 0] (some w) = some (f, t, thr)) :=
  claim_C3 [true, false] [1, 0] (by decide) (by decide)

theorem claim_C4_witness :
    ∃ fps tps thr dfps dtps,
      binary_clf_curve [true, false] [1, 0] none = some (fps, tps, thr, dfps, dtps) ∧
      roc_curve [true, false] [1, 0] none = some (fps.map rateCol, tps.map rateCol, thr) ∧
      (∀ c ∈ fps.map rateCol, ∀ v ∈ c,
        F.le (F.fin 0) v = true ∧ F.le v (F.fin 1) = true) ∧
      (∀ c ∈ tps.map rateCol, ∀ v ∈ c,
        F.le (F.fin 0) v = true ∧ F.le v (F.fin 1) = true) ∧
      (∀ c ∈ fps.map rateCol, c.headD F.nan = F.fin 0) ∧
      (∀ c ∈ tps.map rateCol, c.headD F.nan = F.fin 0) ∧
      (∀ c ∈ fps.map rateCol, c.getLastD F.nan = F.fin 1) ∧
      (∀ c ∈ tps.map rateCol, c.getLastD F.nan = F.fin 1) :=
  claim_C4 [true, false] [1, 0] none (by decide)

theorem claim_C5_witness :
    ∃ fps tps thr dfps dtps,
      binary_clf_curve [true, false] [1, 0] none = some (fps, tps, thr, dfps, dtps) ∧
      recall_precision_curve [true, false] [1, 0] none =
        some (tps.map rateCol, (List.zipWith precCol fps tps).map overrideFirst, thr) ∧
      (∀ k, k < fps.length →
        (tps.getD k []).getD 0 0 + (fps.getD k []).getD 0 0 = 0) ∧
      (∀ k, k < fps.length → ∀ i, 1 ≤ i → i < (tps.getD k []).length →
        0 < (tps.getD k []).getD i 0 + (fps.getD k []).getD i 0) ∧
      (∀ c ∈ (List.zipWith precCol fps tps).map overrideFirst, ∀ p ∈ c,
        F.le (F.fin 0) p = true ∧ F.le p (F.fin 1) = true) :=
  claim_C5 [true, false] [1, 0] none (by decide)

theorem claim_C6_witness :
    ∃ fps tps thr dfps dtps,
      binary_clf_curve [true, false] [1, 0] none = some (fps, tps, thr, dfps, dtps) ∧
      prg_curve [true, false] [1, 0] none = some ((List.zipWith recGainCol fps tps).map clip0,
        (List.zipWith precGainCol fps tps).map overrideFirst, thr) ∧
      (∀ c ∈ List.zipWith recGainCol fps tps,
        List.Chain' (fun a b => F.le a b = true) c) ∧
      (∀ c ∈ List.zipWith recGainCol fps tps, ∀ i, i < c.length →
        F.lt (c.getD i F.nan) (F.fin 0) = true → (clip0 c).getD i F.nan = F.fin 0) ∧
      (∀ c ∈ (List.zipWith recGainCol fps tps).map clip0, ∀ v ∈ c,
        F.le v (F.fin 1) = true) ∧
      (∀ k, k < fps.length → ∀ i,
        i < ((List.zipWith recGainCol fps tps).map clip0 |>.getD k []).length →
        ((List.zipWith recGainCol fps tps).map clip0 |>.getD k []).getD i F.nan ≠ F.fin 0 →
        F.le (((List.zipWith precGainCol fps tps).map overrideFirst |>.getD k []).getD
          i F.nan) (F.fin 1) = true) :=
  claim_C6 [true, false] [1, 0] none (by decide)

theorem claim_C7_witness :
    ∃ fps tps thr dfps dtps,
      binary_clf_curve [true, false] [1, 0] none = some (fps, tps, thr, dfps, dtps) ∧
      thr.headD 0 = ⊤ ∧
      List.Chain' (fun a b => b < a) thr ∧
      (∀ c ∈ fps, c.length = thr.length) ∧ (∀ c ∈ tps, c.length = thr.length) ∧
      (∀ q : ℚ, (q : WithTop ℚ) ∈ thr.tail ↔ q ∈ [(1 : ℚ), 0]) ∧
      (∃ fps0 tps0 d0,
        binary_clf_curve [true, false] [1, 0] none = finishEngine fps0 tps0 thr d0 ∧
        (∀ c ∈ fps0, c.headD 1 = 0) ∧ (∀ c ∈ tps0, c.headD 1 = 0) ∧
        (∀ c ∈ fps0, c.length = thr.length) ∧ (∀ c ∈ tps0, c.length = thr.length)) :=
  claim_C7 [true, false] [1, 0] none (by decide)

theorem claim_C10_witness :
    ∃ fps tps thr dfps dtps,
      binary_clf_curve [true] [5] none = some (fps, tps, thr, dfps, dtps) ∧
      2 ≤ thr.length ∧
      (∀ c ∈ fps, 2 ≤ c.length) ∧ (∀ c ∈ tps, 2 ≤ c.length) ∧
      (∀ c ∈ List.zipWith precCol fps tps, 2 ≤ c.length) ∧
      (∀ c ∈ List.zipWith precGainCol fps tps, 2 ≤ c.length) :=
  claim_C10 [true] [5] none (by decide)
